import Mathlib

/-!
# fun_with_primes: the sieves of `eratosthenes.c` and `isPrime` of `primality.c`

A shallow embedding of `eratosthenesFull`, `eratosthenesPrime`,
`pth_eratosthenesPrime`, `threadPartialSieve` and `isPrime`, followed by theorems about
them.

Conventions of the embedding.

* C arrays are lists. `long unsigned int` and `int` values are natural numbers. The
  functions `eratosthenesFull`, `eratosthenesPrime` and `pth_eratosthenesPrime` below
  describe a call whose allocations hand out the cells asked for: the byte count passed
  to `malloc` does not wrap (`8 * n < 2 ^ 64`) and `malloc` does not return `NULL`. Then
  every index expression of the source (`j + (i + 1)` with `i, j < n`) stays far below
  `2 ^ 64`, so no arithmetic wraps. What happens when the byte count wraps or `malloc`
  fails is the subject of the checked code (`mallocCells` and the functions after it).
* Every `for` loop of the source is one recursive function whose arguments are the loop
  variable and the variables the loop changes.
* Memory returned by `malloc` is uninitialised: a cell of the output array `primes` is
  `none` until the fill pass stores into it.
* The floating point test `i < sqrt(globalN)` is read as `i * i < globalN` (the two agree
  as long as the conversions to `double` are exact).
* `pthread_create` / `pthread_join` are modelled by running the workers to completion one
  after the other, by increasing rank.
* A loop that never exits is the value `none`.
* The `long int` argument of `isPrime` is an integer, and `%` and `/` on it truncate
  towards zero as in C (`Int.tmod`, `Int.tdiv`); the loop variable stays between 2 and
  `n / 2 + 1`, so it does not wrap.
-/

namespace Eratosthenes

/-! ## Global variables -/

/-- The macro `TRUE`. -/
def TRUE : Nat := 1

/-- The macro `FALSE`. -/
def FALSE : Nat := 0

/-- The three global variables of `eratosthenes.c`. -/
structure Globals where
  /-- The array behind `int *isPrimeArray`. -/
  isPrimeArray : List Nat
  /-- The variable `int numberOfThreads` (initialised to 4, never assigned). -/
  numberOfThreads : Nat
  /-- The variable `long unsigned int globalN`. -/
  globalN : Nat
deriving DecidableEq

/-- What `eratosthenesPrime` and `pth_eratosthenesPrime` hand back: the array behind the
returned pointer and the value stored in `*size`. The field `writes` is a ghost: the
indices of `primes` the fill pass stored into, in program order. -/
structure PrimeResult where
  /-- The `primeCount` cells allocated for `primes`; `none` is a cell never written. -/
  primes : List (Option Nat)
  /-- The value stored in `*size`. -/
  size : Nat
  /-- The indices `k` of the stores `primes[k] = ...`, in program order. -/
  writes : List Nat
deriving DecidableEq

/-! ## `eratosthenesFull` -/

/-- The loop `for (j = ...; j < n; j += (i+1)) if (sieve[j] == 1) sieve[j] = i+1;`,
entered with the current value of `j`. -/
def markLoop (n i : Nat) (j : Nat) (sieve : List Nat) : List Nat :=
  if j < n then
    markLoop n i (j + (i + 1)) (if sieve.getD j 0 = 1 then sieve.set j (i + 1) else sieve)
  else sieve
termination_by n - j

/-- The loop `for (i = ...; i < n; i++)` around `markLoop`, which starts at `j = i`. -/
def fullLoop (n : Nat) (i : Nat) (sieve : List Nat) : List Nat :=
  if i < n then fullLoop n (i + 1) (markLoop n i i sieve) else sieve
termination_by n - i

/-- The function `eratosthenesFull`: `n` cells initialised to 1, then the sieve. -/
def eratosthenesFull (n : Nat) : List Nat :=
  fullLoop n 0 (List.replicate n 1)

/-! ## `eratosthenesPrime` -/

/-- The count pass of `eratosthenesPrime`, entered with the current `i`, `lastPrime` and
`primeCount`; the result is the final `primeCount`. -/
def countLoop (sieve : List Nat) (n : Nat) (i lastPrime primeCount : Nat) : Nat :=
  if i < n then
    if sieve.getD i 0 ≥ lastPrime then
      countLoop sieve n (i + 1) (sieve.getD i 0) (primeCount + 1)
    else
      countLoop sieve n (i + 1) lastPrime primeCount
  else primeCount
termination_by n - i

/-- The fill pass of `eratosthenesPrime`: the store `primes[primeCount] = sieve[i]` is
`List.set`, and its index is appended to the ghost list of written indices. -/
def fillLoop (sieve : List Nat) (n : Nat) (i lastPrime primeCount : Nat)
    (primes : List (Option Nat)) (writes : List Nat) : List (Option Nat) × List Nat :=
  if i < n then
    if sieve.getD i 0 ≥ lastPrime then
      fillLoop sieve n (i + 1) (sieve.getD i 0) (primeCount + 1)
        (primes.set primeCount (some (sieve.getD i 0))) (writes ++ [primeCount])
    else
      fillLoop sieve n (i + 1) lastPrime primeCount primes writes
  else (primes, writes)
termination_by n - i

/-- The function `eratosthenesPrime`. -/
def eratosthenesPrime (n : Nat) : PrimeResult :=
  let sieve := eratosthenesFull n
  let primeCount := countLoop sieve n 0 1 0
  let filled := fillLoop sieve n 0 1 0 (List.replicate primeCount none) []
  { primes := filled.1, size := primeCount, writes := filled.2 }

/-! ## `threadPartialSieve` and `pth_eratosthenesPrime` -/

/-- The inner loop of `threadPartialSieve`,
`for (j = ...; j < globalN; j += (i+1)) { if (i > rank+1 && (i+1)%2 == 0) break;
 if (j > i) isPrimeArray[j] = FALSE; }`, entered with the current value of `j`. -/
def strikeLoop (n rank i : Nat) (j : Nat) (a : List Nat) : List Nat :=
  if j < n then
    if i > rank + 1 ∧ (i + 1) % 2 = 0 then a
    else strikeLoop n rank i (j + (i + 1)) (if j > i then a.set j FALSE else a)
  else a
termination_by n - j

/-- The outer loop of `threadPartialSieve`,
`for (i = ...; i < sqrt(globalN); i += numberOfThreads)`, entered with the current `i`.
With `numberOfThreads = 0` the loop variable never changes, so the loop never exits once
entered: that is `none`. -/
def divisorLoop (n T rank : Nat) (i : Nat) (a : List Nat) : Option (List Nat) :=
  if i * i < n then
    if T = 0 then none
    else divisorLoop n T rank (i + T) (strikeLoop n rank i i a)
  else some a
termination_by n - i
decreasing_by
  have h1 : i ≤ i * i := Nat.le_mul_self i
  omega

/-- The function `threadPartialSieve`, run to completion on the global state. -/
def threadPartialSieve (rank : Nat) (g : Globals) : Option Globals :=
  (divisorLoop g.globalN g.numberOfThreads rank (rank + 1) g.isPrimeArray).map
    fun a => { g with isPrimeArray := a }

/-- The create and join loops of `pth_eratosthenesPrime`,
`for (rank = ...; rank < numberOfThreads; rank++)`: worker `rank` runs to completion, then
the workers of higher rank. -/
def runThreads (T : Nat) (rank : Nat) (g : Globals) : Option Globals :=
  if rank < T then
    match threadPartialSieve rank g with
    | none => none
    | some g1 => runThreads T (rank + 1) g1
  else some g
termination_by T - rank

/-- The count pass of `pth_eratosthenesPrime`. -/
def flagCountLoop (a : List Nat) (n : Nat) (i primeCount : Nat) : Nat :=
  if i < n then
    if a.getD i 0 = TRUE then flagCountLoop a n (i + 1) (primeCount + 1)
    else flagCountLoop a n (i + 1) primeCount
  else primeCount
termination_by n - i

/-- The fill pass of `pth_eratosthenesPrime`: the store `primes[primeCount] = i+1` is
`List.set`, and its index is appended to the ghost list of written indices. -/
def flagFillLoop (a : List Nat) (n : Nat) (i primeCount : Nat)
    (primes : List (Option Nat)) (writes : List Nat) : List (Option Nat) × List Nat :=
  if i < n then
    if a.getD i 0 = TRUE then
      flagFillLoop a n (i + 1) (primeCount + 1)
        (primes.set primeCount (some (i + 1))) (writes ++ [primeCount])
    else
      flagFillLoop a n (i + 1) primeCount primes writes
  else (primes, writes)
termination_by n - i

/-- The function `pth_eratosthenesPrime`, from the global state `g`; the result comes
with the global state the call leaves behind. -/
def pth_eratosthenesPrime (n : Nat) (g : Globals) : Option (PrimeResult × Globals) :=
  let g1 : Globals := { g with globalN := n }
  let g2 : Globals := { g1 with isPrimeArray := List.replicate n TRUE }
  match runThreads g2.numberOfThreads 0 g2 with
  | none => none
  | some g3 =>
    let primeCount := flagCountLoop g3.isPrimeArray n 0 0
    let filled := flagFillLoop g3.isPrimeArray n 0 0 (List.replicate primeCount none) []
    some ({ primes := filled.1, size := primeCount, writes := filled.2 }, g3)

/-! ## Calls made in a global state -/

/-- One call of a function of the API of `eratosthenes.c`. -/
inductive Call where
  /-- The call `eratosthenesFull(n)`. -/
  | full (n : Nat)
  /-- The call `eratosthenesPrime(n, &size)`. -/
  | prime (n : Nat)
  /-- The call `pth_eratosthenesPrime(n, &size)`. -/
  | pth (n : Nat)
deriving DecidableEq

/-- What a call hands back. -/
inductive Output where
  /-- The array returned by `eratosthenesFull`. -/
  | sieve (a : List Nat)
  /-- The array and `*size` of `eratosthenesPrime` or `pth_eratosthenesPrime`. -/
  | primes (r : PrimeResult)
deriving DecidableEq

/-- A call made in the global state `g`: its output and the global state it leaves.
The bodies of `eratosthenesFull` and `eratosthenesPrime` name no global variable, so they
leave `g` as it is. -/
def call : Call → Globals → Option (Output × Globals)
  | Call.full n, g => some (Output.sieve (eratosthenesFull n), g)
  | Call.prime n, g => some (Output.primes (eratosthenesPrime n), g)
  | Call.pth n, g => (pth_eratosthenesPrime n g).map fun x => (Output.primes x.1, x.2)

/-! ## Definitions used in the statements and proofs -/

/-- The values the scan of `eratosthenesPrime` selects from index `i` on, in order. -/
def selected (sieve : List Nat) (n : Nat) (i lastPrime : Nat) : List Nat :=
  if i < n then
    if sieve.getD i 0 ≥ lastPrime then
      sieve.getD i 0 :: selected sieve n (i + 1) (sieve.getD i 0)
    else selected sieve n (i + 1) lastPrime
  else []
termination_by n - i

/-- The values the scan of `pth_eratosthenesPrime` selects from index `i` on, in order. -/
def flagSelected (a : List Nat) (n : Nat) (i : Nat) : List Nat :=
  if i < n then
    if a.getD i 0 = TRUE then (i + 1) :: flagSelected a n (i + 1)
    else flagSelected a n (i + 1)
  else []
termination_by n - i

/-- Storing the values `vals` at the consecutive indices `k, k+1, ...` of `primes`. -/
def storeAll (primes : List (Option Nat)) (k : Nat) : List Nat → List (Option Nat)
  | [] => primes
  | v :: vs => storeAll (primes.set k (some v)) (k + 1) vs

/-- The list `1, p₁, p₂, ...` of 1 followed by the primes up to `n`, increasing
(empty when `n = 0`). -/
def oneAndPrimes (n : Nat) : List Nat :=
  (List.range' 1 n).filter fun m => decide (m = 1 ∨ Nat.Prime m)

/-- The state of the scan before index `i`: `lastPrime` is 1 or at most `i`, and no
prime up to `i` exceeds it. -/
def ScanInv (i lastPrime : Nat) : Prop :=
  1 ≤ lastPrime ∧ (lastPrime ≤ i ∨ lastPrime = 1) ∧ ∀ p, Nat.Prime p → p ≤ i → p ≤ lastPrime

/-- Worker `rank`, at divisor index `i`, stores `FALSE` into slot `k`: the `break` does
not fire, and `k` is one of the slots `i + (i+1), i + 2(i+1), ...` below `n`. -/
def Strikes (n rank i k : Nat) : Prop :=
  ¬ (i > rank + 1 ∧ (i + 1) % 2 = 0) ∧ i < k ∧ k < n ∧ (i + 1) ∣ (k + 1)

/-- Some divisor index `i' = i, i + T, i + 2T, ...` with `i' * i' < n` strikes slot `k`. -/
def StrikesFrom (n T rank i k : Nat) : Prop :=
  ∃ i', i ≤ i' ∧ T ∣ (i' - i) ∧ i' * i' < n ∧ Strikes n rank i' k

/-- The primes up to `n`, increasing. -/
def primesUpTo (n : Nat) : List Nat :=
  (List.range (n + 1)).filter fun p => decide (Nat.Prime p)

/-! ## `isPrime` (primality.c) -/

/-- The loop `while (n % i != 0) { if (i > (n / 2)) { i = n; break; } i++; }` of
`isPrime`, entered with the current `i`; the result is the value of `i` after the loop.
The operators `%` and `/` of C truncate towards zero. -/
def searchLoop (n : Int) (i : Int) : Int :=
  if Int.tmod n i ≠ 0 then
    if i > Int.tdiv n 2 then n
    else searchLoop n (i + 1)
  else i
termination_by (Int.tdiv n 2 + 1 - i).toNat
decreasing_by omega

/-- The function `isPrime`: the search starts at `i = 2`, and the result is `false`
exactly when the loop ends with `i < n`. -/
def isPrime (n : Int) : Bool :=
  if searchLoop n 2 < n then false else true

/-! ## Workers run in a given order, and a worker without the early exit -/

/-- The workers of the ranks listed in `ranks` run to completion one after the other, in
this order, each by the function `worker`. -/
def runWorkers (worker : Nat → Globals → Option Globals) : List Nat → Globals → Option Globals
  | [], g => some g
  | r :: rs, g =>
    match worker r g with
    | none => none
    | some g1 => runWorkers worker rs g1

/-- The values the loop variable `i` of the outer loop of `threadPartialSieve` takes
while the loop condition holds, in order, from the current `i` on (`none`: the loop never
exits). -/
def visitedIndices (n T : Nat) (i : Nat) : Option (List Nat) :=
  if i * i < n then
    if T = 0 then none
    else (visitedIndices n T (i + T)).map fun l => i :: l
  else some []
termination_by n - i
decreasing_by
  have h1 : i ≤ i * i := Nat.le_mul_self i
  omega

/-- The inner loop of the corrected worker: `strikeLoop` with the line
`if (i > rank+1 && (i+1)%2 == 0) break;` removed. -/
def strikeLoopNoBreak (n i : Nat) (j : Nat) (a : List Nat) : List Nat :=
  if j < n then
    strikeLoopNoBreak n i (j + (i + 1)) (if j > i then a.set j FALSE else a)
  else a
termination_by n - j

/-- The outer loop of the corrected worker. -/
def divisorLoopNoBreak (n T : Nat) (i : Nat) (a : List Nat) : Option (List Nat) :=
  if i * i < n then
    if T = 0 then none
    else divisorLoopNoBreak n T (i + T) (strikeLoopNoBreak n i i a)
  else some a
termination_by n - i
decreasing_by
  have h1 : i ≤ i * i := Nat.le_mul_self i
  omega

/-- The corrected worker: `threadPartialSieve` without the early exit. -/
def threadPartialSieveNoBreak (rank : Nat) (g : Globals) : Option Globals :=
  (divisorLoopNoBreak g.globalN g.numberOfThreads (rank + 1) g.isPrimeArray).map
    fun a => { g with isPrimeArray := a }

/-- The body of `pth_eratosthenesPrime` with the workers of the ranks in `ranks` run by
`worker` in place of the create and join loops. With `threadPartialSieve` and the ranks
`0, ..., numberOfThreads - 1` this is `pth_eratosthenesPrime` itself; leaving a rank out is
a thread that was never created. -/
def pthWith (worker : Nat → Globals → Option Globals) (ranks : List Nat) (n : Nat)
    (g : Globals) : Option (PrimeResult × Globals) :=
  let g1 : Globals := { g with globalN := n }
  let g2 : Globals := { g1 with isPrimeArray := List.replicate n TRUE }
  match runWorkers worker ranks g2 with
  | none => none
  | some g3 =>
    let primeCount := flagCountLoop g3.isPrimeArray n 0 0
    let filled := flagFillLoop g3.isPrimeArray n 0 0 (List.replicate primeCount none) []
    some ({ primes := filled.1, size := primeCount, writes := filled.2 }, g3)

/-- The logical AND of two flags, as `&&` of C computes it. -/
def flagAnd (x y : Nat) : Nat :=
  if x ≠ 0 ∧ y ≠ 0 then 1 else 0

/-- Divisor index `i` of some worker strikes slot `k` when the early exit is removed. -/
def StrikesNoBreak (n i k : Nat) : Prop :=
  i < k ∧ k < n ∧ (i + 1) ∣ (k + 1)

/-- Some divisor index `i' = i, i + T, ...` with `i' * i' < n` strikes slot `k`, when
the early exit is removed. -/
def StrikesFromNoBreak (n T i k : Nat) : Prop :=
  ∃ i', i ≤ i' ∧ T ∣ (i' - i) ∧ i' * i' < n ∧ StrikesNoBreak n i' k

/-! ## The same code with every array access and every remainder checked

In the functions below an array is read with `a[i]?` and written with `checkedSet`, the
remainder is taken with `checkedMod`, the initialisation loops are spelled out, and an
array has the cells that its `malloc` call hands out (`mallocCells`), with `sizeof(long
unsigned int) = 8`, `sizeof(int) = 4` and a 64 bit `size_t`. The result `none` means: an
index out of bounds, a remainder by zero, or a loop that never exits. -/

/-- The number of cells of `width` bytes behind the pointer that `malloc(width * n)`
returns. The byte count is computed in `size_t`, that is modulo `2 ^ 64`; `ok = false` is
the result `NULL`, which the source never tests and behind which there is no cell. -/
def mallocCells (width n : Nat) (ok : Bool) : Nat :=
  if ok then width * n % 2 ^ 64 / width else 0

/-- The store `a[i] = v`, with the index checked against the number of cells. -/
def checkedSet {α : Type} (a : List α) (i : Nat) (v : α) : Option (List α) :=
  if i < a.length then some (a.set i v) else none

/-- The remainder `a % b`, with the divisor checked. -/
def checkedMod (a b : Nat) : Option Nat :=
  if b = 0 then none else some (a % b)

/-- The loops `for (i = ...; i < n; i++) sieve[i] = 1;` and
`for (i = ...; i < n; i++) isPrimeArray[i] = TRUE;`, storing `v`. -/
def initLoopChecked (n v : Nat) (i : Nat) (mem : List Nat) : Option (List Nat) :=
  if i < n then
    match checkedSet mem i v with
    | none => none
    | some m => initLoopChecked n v (i + 1) m
  else some mem
termination_by n - i

/-- The loop `markLoop`, checked. -/
def markLoopChecked (n i : Nat) (j : Nat) (sieve : List Nat) : Option (List Nat) :=
  if j < n then
    match sieve[j]? with
    | none => none
    | some v =>
      if v = 1 then
        match checkedSet sieve j (i + 1) with
        | none => none
        | some s => markLoopChecked n i (j + (i + 1)) s
      else markLoopChecked n i (j + (i + 1)) sieve
  else some sieve
termination_by n - j

/-- The loop `fullLoop`, checked. -/
def fullLoopChecked (n : Nat) (i : Nat) (sieve : List Nat) : Option (List Nat) :=
  if i < n then
    match markLoopChecked n i i sieve with
    | none => none
    | some s => fullLoopChecked n (i + 1) s
  else some sieve
termination_by n - i

/-- The function `eratosthenesFull`, checked; `ok` tells whether
`malloc(sizeof(long unsigned int)*n)` returned a block, whose cells hold 0 before the
initialisation loop overwrites them. -/
def eratosthenesFullChecked (n : Nat) (ok : Bool) : Option (List Nat) :=
  match initLoopChecked n 1 0 (List.replicate (mallocCells 8 n ok) 0) with
  | none => none
  | some s => fullLoopChecked n 0 s

/-- The loop `countLoop`, checked. -/
def countLoopChecked (sieve : List Nat) (n : Nat) (i lastPrime primeCount : Nat) :
    Option Nat :=
  if i < n then
    match sieve[i]? with
    | none => none
    | some v =>
      if v ≥ lastPrime then countLoopChecked sieve n (i + 1) v (primeCount + 1)
      else countLoopChecked sieve n (i + 1) lastPrime primeCount
  else some primeCount
termination_by n - i

/-- The loop `fillLoop`, checked. -/
def fillLoopChecked (sieve : List Nat) (n : Nat) (i lastPrime primeCount : Nat)
    (primes : List (Option Nat)) (writes : List Nat) :
    Option (List (Option Nat) × List Nat) :=
  if i < n then
    match sieve[i]? with
    | none => none
    | some v =>
      if v ≥ lastPrime then
        match checkedSet primes primeCount (some v) with
        | none => none
        | some p => fillLoopChecked sieve n (i + 1) v (primeCount + 1) p (writes ++ [primeCount])
      else fillLoopChecked sieve n (i + 1) lastPrime primeCount primes writes
  else some (primes, writes)
termination_by n - i

/-- The function `eratosthenesPrime`, checked; `okSieve` and `okPrimes` tell whether the
`malloc` calls for `sieve` and for `primes` returned a block. -/
def eratosthenesPrimeChecked (n : Nat) (okSieve okPrimes : Bool) : Option PrimeResult :=
  match eratosthenesFullChecked n okSieve with
  | none => none
  | some sieve =>
    match countLoopChecked sieve n 0 1 0 with
    | none => none
    | some primeCount =>
      match fillLoopChecked sieve n 0 1 0
          (List.replicate (mallocCells 8 primeCount okPrimes) none) [] with
      | none => none
      | some filled => some { primes := filled.1, size := primeCount, writes := filled.2 }

/-- The test `i > rank+1 && (i+1)%2 == 0`, checked: the remainder is taken only when the
first operand of `&&` holds. -/
def breakTestChecked (rank i : Nat) : Option Bool :=
  if i > rank + 1 then
    match checkedMod (i + 1) 2 with
    | none => none
    | some m => some (decide (m = 0))
  else some false

/-- The loop `strikeLoop`, checked. -/
def strikeLoopChecked (n rank i : Nat) (j : Nat) (a : List Nat) : Option (List Nat) :=
  if j < n then
    match breakTestChecked rank i with
    | none => none
    | some true => some a
    | some false =>
      if j > i then
        match checkedSet a j FALSE with
        | none => none
        | some b => strikeLoopChecked n rank i (j + (i + 1)) b
      else strikeLoopChecked n rank i (j + (i + 1)) a
  else some a
termination_by n - j

/-- The loop `divisorLoop`, checked. -/
def divisorLoopChecked (n T rank : Nat) (i : Nat) (a : List Nat) : Option (List Nat) :=
  if i * i < n then
    if T = 0 then none
    else
      match strikeLoopChecked n rank i i a with
      | none => none
      | some b => divisorLoopChecked n T rank (i + T) b
  else some a
termination_by n - i
decreasing_by
  have h1 : i ≤ i * i := Nat.le_mul_self i
  omega

/-- The function `threadPartialSieve`, checked. -/
def threadPartialSieveChecked (rank : Nat) (g : Globals) : Option Globals :=
  (divisorLoopChecked g.globalN g.numberOfThreads rank (rank + 1) g.isPrimeArray).map
    fun a => { g with isPrimeArray := a }

/-- The loop `flagCountLoop`, checked. -/
def flagCountLoopChecked (a : List Nat) (n : Nat) (i primeCount : Nat) : Option Nat :=
  if i < n then
    match a[i]? with
    | none => none
    | some v =>
      if v = TRUE then flagCountLoopChecked a n (i + 1) (primeCount + 1)
      else flagCountLoopChecked a n (i + 1) primeCount
  else some primeCount
termination_by n - i

/-- The loop `flagFillLoop`, checked. -/
def flagFillLoopChecked (a : List Nat) (n : Nat) (i primeCount : Nat)
    (primes : List (Option Nat)) (writes : List Nat) :
    Option (List (Option Nat) × List Nat) :=
  if i < n then
    match a[i]? with
    | none => none
    | some v =>
      if v = TRUE then
        match checkedSet primes primeCount (some (i + 1)) with
        | none => none
        | some p => flagFillLoopChecked a n (i + 1) (primeCount + 1) p (writes ++ [primeCount])
      else flagFillLoopChecked a n (i + 1) primeCount primes writes
  else some (primes, writes)
termination_by n - i

/-- The function `pth_eratosthenesPrime`, checked; `okFlags` and `okPrimes` tell whether
`malloc(sizeof(int)*n)` for `isPrimeArray` and the `malloc` call for `primes` returned a
block. The cells of `isPrimeArray` hold 0 before the initialisation loop overwrites
them. -/
def pth_eratosthenesPrimeChecked (n : Nat) (g : Globals) (okFlags okPrimes : Bool) :
    Option (PrimeResult × Globals) :=
  let g1 : Globals := { g with globalN := n }
  match initLoopChecked n TRUE 0 (List.replicate (mallocCells 4 n okFlags) 0) with
  | none => none
  | some flags =>
    let g2 : Globals := { g1 with isPrimeArray := flags }
    match runWorkers threadPartialSieveChecked (List.range g2.numberOfThreads) g2 with
    | none => none
    | some g3 =>
      match flagCountLoopChecked g3.isPrimeArray n 0 0 with
      | none => none
      | some primeCount =>
        match flagFillLoopChecked g3.isPrimeArray n 0 0
            (List.replicate (mallocCells 8 primeCount okPrimes) none) [] with
        | none => none
        | some filled =>
          some ({ primes := filled.1, size := primeCount, writes := filled.2 }, g3)

/-! ## Facts about `eratosthenesFull` -/

theorem markLoop_length (n i j : Nat) (s : List Nat) :
    (markLoop n i j s).length = s.length := by
  induction j, s using markLoop.induct n i with
  | case1 j s hj ih =>
    rw [markLoop, if_pos hj]
    simp only [dite_eq_ite] at ih
    rw [ih]
    split <;> simp
  | case2 j s hj =>
    rw [markLoop, if_neg hj]

theorem dvd_sub_step {d j k : Nat} (hjk : j ≤ k) :
    d ∣ (k - j) ↔ (k = j ∨ (j + d ≤ k ∧ d ∣ (k - (j + d)))) := by
  constructor
  · rintro ⟨c, hc⟩
    rcases Nat.eq_zero_or_pos c with h0 | hpos
    · left
      subst h0
      omega
    · right
      obtain ⟨c, rfl⟩ : ∃ c', c = c' + 1 := ⟨c - 1, by omega⟩
      have : d * (c + 1) = d * c + d := by ring
      refine ⟨by omega, ⟨c, by omega⟩⟩
  · rintro (h | ⟨h1, ⟨c, hc⟩⟩)
    · subst h
      simp
    · refine ⟨c + 1, ?_⟩
      have : d * (c + 1) = d * c + d := by ring
      omega

theorem markLoop_getD (n i j : Nat) (s : List Nat) (k : Nat) :
    (markLoop n i j s).getD k 0 =
      if j ≤ k ∧ k < n ∧ (i + 1) ∣ (k - j) ∧ s.getD k 0 = 1 then i + 1 else s.getD k 0 := by
  induction j, s using markLoop.induct n i with
  | case1 j s hj ih =>
    rw [markLoop, if_pos hj]
    simp only [dite_eq_ite] at ih
    rw [ih]
    by_cases hkj : k = j
    · subst hkj
      have h0 : ¬ (k + (i + 1) ≤ k ∧ k < n ∧ (i + 1) ∣ (k - (k + (i + 1))) ∧
          (if s.getD k 0 = 1 then s.set k (i + 1) else s).getD k 0 = 1) := by
        rintro ⟨a, _⟩
        omega
      rw [if_neg h0]
      by_cases h1 : s.getD k 0 = 1
      · have hlen : k < s.length := by
          by_contra hlen
          rw [List.getD_eq_default _ _ (by omega)] at h1
          omega
        have h2 : k ≤ k ∧ k < n ∧ (i + 1) ∣ (k - k) ∧ s.getD k 0 = 1 :=
          ⟨le_refl k, hj, by simp, h1⟩
        rw [if_pos h1, if_pos h2]
        simp [List.getD_eq_getElem?_getD, List.getElem?_set, hlen]
      · have h2 : ¬ (k ≤ k ∧ k < n ∧ (i + 1) ∣ (k - k) ∧ s.getD k 0 = 1) := fun h => h1 h.2.2.2
        rw [if_neg h1, if_neg h2]
    · have hne : j ≠ k := fun h => hkj h.symm
      have hset : (if s.getD j 0 = 1 then s.set j (i + 1) else s).getD k 0 = s.getD k 0 := by
        split
        · simp [List.getD_eq_getElem?_getD, List.getElem?_set, hne]
        · rfl
      rw [hset]
      have e1 : (j + (i + 1) ≤ k ∧ k < n ∧ (i + 1) ∣ (k - (j + (i + 1))) ∧ s.getD k 0 = 1) ↔
          (j ≤ k ∧ k < n ∧ (i + 1) ∣ (k - j) ∧ s.getD k 0 = 1) := by
        constructor
        · rintro ⟨a, b, c, d⟩
          exact ⟨by omega, b, (dvd_sub_step (by omega)).2 (Or.inr ⟨a, c⟩), d⟩
        · rintro ⟨a, b, c, d⟩
          rcases (dvd_sub_step a).1 c with c | ⟨a1, c⟩
          · exact absurd c hkj
          · exact ⟨a1, b, c, d⟩
      simp only [e1]
  | case2 j s hj =>
    rw [markLoop, if_neg hj]
    have : ¬ (j ≤ k ∧ k < n ∧ (i + 1) ∣ (k - j) ∧ s.getD k 0 = 1) := by
      rintro ⟨a, b, _⟩
      omega
    rw [if_neg this]

theorem fullLoop_length (n i : Nat) (s : List Nat) :
    (fullLoop n i s).length = s.length := by
  induction i, s using fullLoop.induct n with
  | case1 i s hi ih =>
    rw [fullLoop, if_pos hi, ih, markLoop_length]
  | case2 i s hi =>
    rw [fullLoop, if_neg hi]

/-- One round of the sieve: if every slot `k` holds the smallest factor of `k+1` when
that factor is at most `i` and 1 otherwise, then after `markLoop n i i` the same holds
with `i + 1` in place of `i`. -/
theorem markLoop_step (n i : Nat) (s : List Nat)
    (hs : ∀ k, k < n → s.getD k 0 = if Nat.minFac (k + 1) ≤ i then Nat.minFac (k + 1) else 1)
    (k : Nat) (hk : k < n) :
    (markLoop n i i s).getD k 0 =
      if Nat.minFac (k + 1) ≤ i + 1 then Nat.minFac (k + 1) else 1 := by
  rw [markLoop_getD, hs k hk]
  have hpos : 0 < Nat.minFac (k + 1) := Nat.minFac_pos _
  have hdvd : Nat.minFac (k + 1) ∣ k + 1 := Nat.minFac_dvd _
  by_cases hc : i ≤ k ∧ k < n ∧ (i + 1) ∣ (k - i) ∧
      (if Nat.minFac (k + 1) ≤ i then Nat.minFac (k + 1) else 1) = 1
  · rw [if_pos hc]
    obtain ⟨hik, _, hd, h1⟩ := hc
    have hd1 : (i + 1) ∣ (k + 1) := by
      have : k + 1 = (k - i) + (i + 1) := by omega
      rw [this]
      exact Nat.dvd_add hd (dvd_refl _)
    rcases Nat.eq_zero_or_pos i with hi0 | hipos
    · subst hi0
      by_cases hm : Nat.minFac (k + 1) ≤ 0 + 1
      · rw [if_pos hm]; omega
      · rw [if_neg hm]
    · have hle : Nat.minFac (k + 1) ≤ i + 1 := Nat.minFac_le_of_dvd (by omega) hd1
      rw [if_pos hle]
      by_cases hm : Nat.minFac (k + 1) ≤ i
      · rw [if_pos hm] at h1
        have : k + 1 = 1 := Nat.minFac_eq_one_iff.1 h1
        omega
      · omega
  · rw [if_neg hc]
    by_cases hm : Nat.minFac (k + 1) ≤ i
    · rw [if_pos hm, if_pos (by omega)]
    · rw [if_neg hm]
      by_cases hm1 : Nat.minFac (k + 1) ≤ i + 1
      · exfalso
        apply hc
        have he : Nat.minFac (k + 1) = i + 1 := by omega
        have hik : i ≤ k := by
          have := Nat.le_of_dvd (by omega) hdvd
          omega
        refine ⟨hik, hk, ?_, by rw [if_neg hm]⟩
        rw [he] at hdvd
        have h2 : k + 1 = (k - i) + (i + 1) := by omega
        rw [h2] at hdvd
        exact (Nat.dvd_add_left (dvd_refl _)).1 hdvd
      · rw [if_neg hm1]

theorem fullLoop_getD (n i : Nat) (s : List Nat)
    (hs : ∀ k, k < n → s.getD k 0 = if Nat.minFac (k + 1) ≤ i then Nat.minFac (k + 1) else 1)
    (k : Nat) (hk : k < n) :
    (fullLoop n i s).getD k 0 = Nat.minFac (k + 1) := by
  induction i, s using fullLoop.induct n with
  | case1 i s hi ih =>
    rw [fullLoop, if_pos hi]
    exact ih (fun k hk => markLoop_step n i s hs k hk)
  | case2 i s hi =>
    rw [fullLoop, if_neg hi, hs k hk]
    have : Nat.minFac (k + 1) ≤ k + 1 := Nat.minFac_le (by omega)
    rw [if_pos (by omega)]

/-- The array built by `eratosthenesFull`, in closed form. -/
theorem eratosthenesFull_eq (n : Nat) :
    eratosthenesFull n = (List.range n).map fun k => Nat.minFac (k + 1) := by
  have hlen : (eratosthenesFull n).length = n := by
    simp [eratosthenesFull, fullLoop_length]
  have hget : ∀ k, k < n → (eratosthenesFull n).getD k 0 = Nat.minFac (k + 1) := by
    intro k hk
    apply fullLoop_getD n 0 _ _ k hk
    intro k hk
    have : ¬ Nat.minFac (k + 1) ≤ 0 := by
      have := Nat.minFac_pos (k + 1)
      omega
    rw [if_neg this]
    simp [List.getD_eq_getElem?_getD, hk]
  apply List.ext_getElem
  · simp [hlen]
  · intro k h1 h2
    have hk : k < n := by rw [hlen] at h1; exact h1
    have := hget k hk
    rw [List.getD_eq_getElem?_getD, List.getElem?_eq_getElem h1] at this
    simpa using this

/-! ## The two passes of the extractors -/

theorem selected_take {sieve : List Nat} {n i lastPrime : Nat} (hi : i < n)
    (hsel : sieve.getD i 0 ≥ lastPrime) :
    selected sieve n i lastPrime = sieve.getD i 0 :: selected sieve n (i + 1) (sieve.getD i 0) := by
  rw [selected, if_pos hi, if_pos hsel]

theorem selected_skip {sieve : List Nat} {n i lastPrime : Nat} (hi : i < n)
    (hsel : ¬ sieve.getD i 0 ≥ lastPrime) :
    selected sieve n i lastPrime = selected sieve n (i + 1) lastPrime := by
  rw [selected, if_pos hi, if_neg hsel]

theorem selected_done {sieve : List Nat} {n i lastPrime : Nat} (hi : ¬ i < n) :
    selected sieve n i lastPrime = [] := by
  rw [selected, if_neg hi]

theorem flagSelected_take {a : List Nat} {n i : Nat} (hi : i < n) (hsel : a.getD i 0 = TRUE) :
    flagSelected a n i = (i + 1) :: flagSelected a n (i + 1) := by
  rw [flagSelected, if_pos hi, if_pos hsel]

theorem flagSelected_skip {a : List Nat} {n i : Nat} (hi : i < n) (hsel : ¬ a.getD i 0 = TRUE) :
    flagSelected a n i = flagSelected a n (i + 1) := by
  rw [flagSelected, if_pos hi, if_neg hsel]

theorem flagSelected_done {a : List Nat} {n i : Nat} (hi : ¬ i < n) :
    flagSelected a n i = [] := by
  rw [flagSelected, if_neg hi]

theorem countLoop_eq (sieve : List Nat) (n i lastPrime primeCount : Nat) :
    countLoop sieve n i lastPrime primeCount =
      primeCount + (selected sieve n i lastPrime).length := by
  induction i, lastPrime, primeCount using countLoop.induct sieve n with
  | case1 i lp pc hi hsel ih =>
    rw [countLoop, if_pos hi, if_pos hsel, ih, selected_take hi hsel]
    simp only [List.length_cons]
    omega
  | case2 i lp pc hi hsel ih =>
    rw [countLoop, if_pos hi, if_neg hsel, ih, selected_skip hi hsel]
  | case3 i lp pc hi =>
    rw [countLoop, if_neg hi, selected_done hi]
    simp

theorem fillLoop_eq (sieve : List Nat) (n i lastPrime primeCount : Nat)
    (primes : List (Option Nat)) (writes : List Nat) :
    fillLoop sieve n i lastPrime primeCount primes writes =
      (storeAll primes primeCount (selected sieve n i lastPrime),
        writes ++ List.range' primeCount (selected sieve n i lastPrime).length) := by
  induction i, lastPrime, primeCount, primes, writes using fillLoop.induct sieve n with
  | case1 i lp pc primes writes hi hsel ih =>
    rw [fillLoop, if_pos hi, if_pos hsel, ih, selected_take hi hsel]
    simp [storeAll, List.range'_succ]
  | case2 i lp pc primes writes hi hsel ih =>
    rw [fillLoop, if_pos hi, if_neg hsel, ih, selected_skip hi hsel]
  | case3 i lp pc primes writes hi =>
    rw [fillLoop, if_neg hi, selected_done hi]
    simp [storeAll]

theorem flagCountLoop_eq (a : List Nat) (n i primeCount : Nat) :
    flagCountLoop a n i primeCount = primeCount + (flagSelected a n i).length := by
  induction i, primeCount using flagCountLoop.induct a n with
  | case1 i pc hi hsel ih =>
    rw [flagCountLoop, if_pos hi, if_pos hsel, ih, flagSelected_take hi hsel]
    simp only [List.length_cons]
    omega
  | case2 i pc hi hsel ih =>
    rw [flagCountLoop, if_pos hi, if_neg hsel, ih, flagSelected_skip hi hsel]
  | case3 i pc hi =>
    rw [flagCountLoop, if_neg hi, flagSelected_done hi]
    simp

theorem flagFillLoop_eq (a : List Nat) (n i primeCount : Nat)
    (primes : List (Option Nat)) (writes : List Nat) :
    flagFillLoop a n i primeCount primes writes =
      (storeAll primes primeCount (flagSelected a n i),
        writes ++ List.range' primeCount (flagSelected a n i).length) := by
  induction i, primeCount, primes, writes using flagFillLoop.induct a n with
  | case1 i pc primes writes hi hsel ih =>
    rw [flagFillLoop, if_pos hi, if_pos hsel, ih, flagSelected_take hi hsel]
    simp [storeAll, List.range'_succ]
  | case2 i pc primes writes hi hsel ih =>
    rw [flagFillLoop, if_pos hi, if_neg hsel, ih, flagSelected_skip hi hsel]
  | case3 i pc primes writes hi =>
    rw [flagFillLoop, if_neg hi, flagSelected_done hi]
    simp [storeAll]

theorem storeAll_fresh (pre vals : List Nat) (m : Nat) (hm : vals.length = m) :
    storeAll (pre.map some ++ List.replicate m none) pre.length vals =
      (pre ++ vals).map some := by
  induction vals generalizing pre m with
  | nil =>
    simp at hm
    subst hm
    simp [storeAll]
  | cons v vs ih =>
    obtain ⟨m, rfl⟩ : ∃ m', m = m' + 1 := ⟨vs.length, by simp at hm; omega⟩
    have hset : (pre.map some ++ List.replicate (m + 1) none).set pre.length (some v) =
        (pre ++ [v]).map some ++ List.replicate m none := by
      have : pre.length = (pre.map some).length := by simp
      rw [this, List.set_append_right _ _ (le_refl _)]
      simp [List.replicate_succ]
    have h := ih (pre ++ [v]) m (by simpa using hm)
    simp only [storeAll, hset]
    simpa using h

theorem storeAll_replicate (vals : List Nat) :
    storeAll (List.replicate vals.length none) 0 vals = vals.map some := by
  simpa using storeAll_fresh [] vals vals.length rfl

/-! ## Which slots the scan of `eratosthenesPrime` selects -/

/-- A composite number has a prime below it that exceeds its smallest factor
(Bertrand's postulate applied to the smallest factor). -/
theorem exists_prime_between_minFac {m : Nat} (hm : 2 ≤ m) (hc : ¬ Nat.Prime m) :
    ∃ p, Nat.Prime p ∧ Nat.minFac m < p ∧ p < m := by
  have hq : Nat.Prime (Nat.minFac m) := Nat.minFac_prime (by omega)
  have hsq : Nat.minFac m ^ 2 ≤ m := Nat.minFac_sq_le_self (by omega) hc
  obtain ⟨p, hp, h1, h2⟩ := Nat.exists_prime_lt_and_le_two_mul (Nat.minFac m) hq.pos.ne'
  refine ⟨p, hp, h1, ?_⟩
  have h3 : 2 * Nat.minFac m ≤ Nat.minFac m ^ 2 := by
    rw [pow_two]
    exact Nat.mul_le_mul_right _ hq.two_le
  have h4 : p ≤ m := by omega
  rcases Nat.lt_or_ge p m with h | h
  · exact h
  · have : p = m := by omega
    exact absurd (this ▸ hp) hc

theorem scan_select_iff {i lp : Nat} (h : ScanInv i lp) :
    Nat.minFac (i + 1) ≥ lp ↔ (i + 1 = 1 ∨ Nat.Prime (i + 1)) := by
  obtain ⟨h1, h2, h3⟩ := h
  constructor
  · intro hge
    by_contra hcon
    push_neg at hcon
    obtain ⟨hne, hnp⟩ := hcon
    obtain ⟨p, hp, hlt, hpm⟩ := exists_prime_between_minFac (m := i + 1) (by omega) hnp
    have := h3 p hp (by omega)
    omega
  · rintro (h0 | hp)
    · have hi : i = 0 := by omega
      subst hi
      have : Nat.minFac (0 + 1) = 1 := by simp
      omega
    · rw [(Nat.prime_def_minFac.1 hp).2]
      omega

theorem scanInv_take {i lp : Nat} (h : ScanInv i lp) (hs : i + 1 = 1 ∨ Nat.Prime (i + 1)) :
    ScanInv (i + 1) (Nat.minFac (i + 1)) := by
  rcases hs with h0 | hp
  · have hi : i = 0 := by omega
    subst hi
    refine ⟨by simp, Or.inr (by simp), ?_⟩
    intro p hp hle
    have := hp.two_le
    omega
  · rw [(Nat.prime_def_minFac.1 hp).2]
    exact ⟨by omega, Or.inl (le_refl _), fun p _ hle => hle⟩

theorem scanInv_skip {i lp : Nat} (h : ScanInv i lp) (hs : ¬ (i + 1 = 1 ∨ Nat.Prime (i + 1))) :
    ScanInv (i + 1) lp := by
  obtain ⟨h1, h2, h3⟩ := h
  push_neg at hs
  refine ⟨h1, ?_, ?_⟩
  · rcases h2 with h2 | h2
    · exact Or.inl (by omega)
    · exact Or.inr h2
  · intro p hp hle
    rcases Nat.lt_or_ge p (i + 1) with hlt | hge
    · exact h3 p hp (by omega)
    · have : p = i + 1 := by omega
      exact absurd (this ▸ hp) hs.2

theorem selected_minFac (sieve : List Nat) (n : Nat)
    (hs : ∀ k, k < n → sieve.getD k 0 = Nat.minFac (k + 1)) (i lp : Nat) (h : ScanInv i lp) :
    selected sieve n i lp =
      (List.range' (i + 1) (n - i)).filter fun m => decide (m = 1 ∨ Nat.Prime m) := by
  induction i, lp using selected.induct sieve n with
  | case1 i lp hi hsel ih =>
    have hsel1 : Nat.minFac (i + 1) ≥ lp := by rw [← hs i hi]; exact hsel
    have hp := (scan_select_iff h).1 hsel1
    have hv : Nat.minFac (i + 1) = i + 1 := by
      rcases hp with h0 | hp
      · have hi0 : i = 0 := by omega
        subst hi0
        simp
      · exact (Nat.prime_def_minFac.1 hp).2
    rw [selected_take hi hsel, ih (by rw [hs i hi]; exact scanInv_take h hp), hs i hi, hv]
    obtain ⟨d, hd⟩ : ∃ d, n - i = d + 1 := ⟨n - i - 1, by omega⟩
    have hd1 : n - (i + 1) = d := by omega
    rw [hd, hd1, List.range'_succ, List.filter_cons_of_pos (by simpa using hp)]
  | case2 i lp hi hsel ih =>
    have hsel1 : ¬ Nat.minFac (i + 1) ≥ lp := by rw [← hs i hi]; exact hsel
    have hp : ¬ (i + 1 = 1 ∨ Nat.Prime (i + 1)) := fun hp => hsel1 ((scan_select_iff h).2 hp)
    rw [selected_skip hi hsel, ih (scanInv_skip h hp)]
    obtain ⟨d, hd⟩ : ∃ d, n - i = d + 1 := ⟨n - i - 1, by omega⟩
    have hd1 : n - (i + 1) = d := by omega
    rw [hd, hd1, List.range'_succ, List.filter_cons_of_neg (by simpa using hp)]
  | case3 i lp hi =>
    rw [selected_done hi]
    have : n - i = 0 := by omega
    simp [this]

/-- The closed form of `eratosthenesPrime`. -/
theorem eratosthenesPrime_eq (n : Nat) :
    eratosthenesPrime n =
      { primes := (oneAndPrimes n).map some, size := (oneAndPrimes n).length,
        writes := List.range (oneAndPrimes n).length } := by
  have hs : ∀ k, k < n → (eratosthenesFull n).getD k 0 = Nat.minFac (k + 1) := by
    intro k hk
    rw [eratosthenesFull_eq]
    simp [List.getD_eq_getElem?_getD, hk]
  have hinv : ScanInv 0 1 := by
    refine ⟨le_refl 1, Or.inr rfl, ?_⟩
    intro p hp hle
    have := hp.two_le
    omega
  have hsel : selected (eratosthenesFull n) n 0 1 = oneAndPrimes n := by
    rw [selected_minFac _ n hs 0 1 hinv]
    rfl
  simp only [eratosthenesPrime, countLoop_eq, fillLoop_eq, hsel, Nat.zero_add,
    storeAll_replicate, List.nil_append, List.range_eq_range']

/-! ## What one worker strikes -/

theorem strikeLoop_length (n rank i j : Nat) (a : List Nat) :
    (strikeLoop n rank i j a).length = a.length := by
  induction j, a using strikeLoop.induct n rank i with
  | case1 j a hj hbr =>
    rw [strikeLoop, if_pos hj, if_pos hbr]
  | case2 j a hj hbr ih =>
    rw [strikeLoop, if_pos hj, if_neg hbr]
    simp only [dite_eq_ite] at ih
    rw [ih]
    split <;> simp
  | case3 j a hj =>
    rw [strikeLoop, if_neg hj]

theorem strikeLoop_getD (n rank i j : Nat) (a : List Nat) (k : Nat) :
    (strikeLoop n rank i j a).getD k 0 =
      if ¬ (i > rank + 1 ∧ (i + 1) % 2 = 0) ∧ j ≤ k ∧ k < n ∧ i < k ∧ (i + 1) ∣ (k - j)
      then FALSE else a.getD k 0 := by
  induction j, a using strikeLoop.induct n rank i with
  | case1 j a hj hbr =>
    rw [strikeLoop, if_pos hj, if_pos hbr]
    have : ¬ (¬ (i > rank + 1 ∧ (i + 1) % 2 = 0) ∧ j ≤ k ∧ k < n ∧ i < k ∧
        (i + 1) ∣ (k - j)) := fun h => h.1 hbr
    rw [if_neg this]
  | case2 j a hj hbr ih =>
    rw [strikeLoop, if_pos hj, if_neg hbr]
    simp only [dite_eq_ite] at ih
    rw [ih]
    by_cases hkj : k = j
    · subst hkj
      have h0 : ¬ (¬ (i > rank + 1 ∧ (i + 1) % 2 = 0) ∧ k + (i + 1) ≤ k ∧ k < n ∧ i < k ∧
          (i + 1) ∣ (k - (k + (i + 1)))) := by
        rintro ⟨_, h, _⟩
        omega
      rw [if_neg h0]
      by_cases hik : k > i
      · have h2 : ¬ (i > rank + 1 ∧ (i + 1) % 2 = 0) ∧ k ≤ k ∧ k < n ∧ i < k ∧
            (i + 1) ∣ (k - k) := ⟨hbr, le_refl k, hj, hik, by simp⟩
        rw [if_pos hik, if_pos h2]
        by_cases hlen : k < a.length
        · simp [List.getD_eq_getElem?_getD, List.getElem?_set, hlen]
        · rw [List.getD_eq_default _ _ (by simp; omega)]
          rfl
      · have h2 : ¬ (¬ (i > rank + 1 ∧ (i + 1) % 2 = 0) ∧ k ≤ k ∧ k < n ∧ i < k ∧
            (i + 1) ∣ (k - k)) := fun h => hik h.2.2.2.1
        rw [if_neg hik, if_neg h2]
    · have hne : j ≠ k := fun h => hkj h.symm
      have hset : (if j > i then a.set j FALSE else a).getD k 0 = a.getD k 0 := by
        split
        · simp [List.getD_eq_getElem?_getD, List.getElem?_set, hne]
        · rfl
      rw [hset]
      have e1 : (¬ (i > rank + 1 ∧ (i + 1) % 2 = 0) ∧ j + (i + 1) ≤ k ∧ k < n ∧ i < k ∧
            (i + 1) ∣ (k - (j + (i + 1)))) ↔
          (¬ (i > rank + 1 ∧ (i + 1) % 2 = 0) ∧ j ≤ k ∧ k < n ∧ i < k ∧
            (i + 1) ∣ (k - j)) := by
        constructor
        · rintro ⟨z, a, b, c, d⟩
          exact ⟨z, by omega, b, c, (dvd_sub_step (by omega)).2 (Or.inr ⟨a, d⟩)⟩
        · rintro ⟨z, a, b, c, d⟩
          rcases (dvd_sub_step a).1 d with d | ⟨a1, d⟩
          · exact absurd d hkj
          · exact ⟨z, a1, b, c, d⟩
      simp only [e1]
  | case3 j a hj =>
    rw [strikeLoop, if_neg hj]
    have : ¬ (¬ (i > rank + 1 ∧ (i + 1) % 2 = 0) ∧ j ≤ k ∧ k < n ∧ i < k ∧
        (i + 1) ∣ (k - j)) := by
      rintro ⟨_, a, b, _⟩
      omega
    rw [if_neg this]

/-- The effect of the whole inner loop, started at `j = i`. -/
theorem strikeLoop_spec (n rank i : Nat) (a : List Nat) (k : Nat) :
    (Strikes n rank i k → (strikeLoop n rank i i a).getD k 0 = FALSE) ∧
    (¬ Strikes n rank i k → (strikeLoop n rank i i a).getD k 0 = a.getD k 0) := by
  have hiff : (¬ (i > rank + 1 ∧ (i + 1) % 2 = 0) ∧ i ≤ k ∧ k < n ∧ i < k ∧
      (i + 1) ∣ (k - i)) ↔ Strikes n rank i k := by
    unfold Strikes
    constructor
    · rintro ⟨z, a, b, c, d⟩
      refine ⟨z, c, b, ?_⟩
      have : k + 1 = (k - i) + (i + 1) := by omega
      rw [this]
      exact Nat.dvd_add d (dvd_refl _)
    · rintro ⟨z, c, b, d⟩
      refine ⟨z, by omega, b, c, ?_⟩
      have : k + 1 = (k - i) + (i + 1) := by omega
      rw [this] at d
      exact (Nat.dvd_add_left (dvd_refl _)).1 d
  rw [strikeLoop_getD]
  constructor
  · intro h
    rw [if_pos (hiff.2 h)]
  · intro h
    rw [if_neg (fun h1 => h (hiff.1 h1))]

theorem strikesFrom_step {n T rank i k : Nat} (hi : i * i < n) :
    StrikesFrom n T rank i k ↔ (Strikes n rank i k ∨ StrikesFrom n T rank (i + T) k) := by
  unfold StrikesFrom
  constructor
  · rintro ⟨i', h1, h2, h3, h4⟩
    rcases (dvd_sub_step h1).1 h2 with h | ⟨ha, hb⟩
    · subst h
      exact Or.inl h4
    · exact Or.inr ⟨i', ha, hb, h3, h4⟩
  · rintro (h | ⟨i', h1, h2, h3, h4⟩)
    · exact ⟨i, le_refl i, by simp, hi, h⟩
    · exact ⟨i', by omega, (dvd_sub_step (by omega)).2 (Or.inr ⟨h1, h2⟩), h3, h4⟩

theorem strikesFrom_done {n T rank i k : Nat} (hi : ¬ i * i < n) :
    ¬ StrikesFrom n T rank i k := by
  rintro ⟨i', h1, _, h3, _⟩
  have : i * i ≤ i' * i' := Nat.mul_le_mul h1 h1
  omega

/-- The outer loop of a worker exits (for `T ≥ 1`), keeps the length of the array, stores
`FALSE` exactly into the slots its divisor indices strike and leaves the others alone. -/
theorem divisorLoop_spec (n T rank : Nat) (hT : 0 < T) (i : Nat) (a : List Nat) :
    ∃ a', divisorLoop n T rank i a = some a' ∧ a'.length = a.length ∧
      ∀ k, (StrikesFrom n T rank i k → a'.getD k 0 = FALSE) ∧
        (¬ StrikesFrom n T rank i k → a'.getD k 0 = a.getD k 0) := by
  induction i, a using divisorLoop.induct n T rank with
  | case1 i a hi hT0 => omega
  | case2 i a hi hT0 ih =>
    obtain ⟨a', h1, h2, h3⟩ := ih
    refine ⟨a', ?_, ?_, ?_⟩
    · rw [divisorLoop, if_pos hi, if_neg hT0]
      exact h1
    · rw [h2, strikeLoop_length]
    · intro k
      have hstep := @strikesFrom_step n T rank i k hi
      have hs := strikeLoop_spec n rank i a k
      constructor
      · intro h
        by_cases hlater : StrikesFrom n T rank (i + T) k
        · exact (h3 k).1 hlater
        · rw [(h3 k).2 hlater]
          rcases hstep.1 h with h | h
          · exact hs.1 h
          · exact absurd h hlater
      · intro h
        have hnow : ¬ Strikes n rank i k := fun h1 => h (hstep.2 (Or.inl h1))
        have hlater : ¬ StrikesFrom n T rank (i + T) k := fun h1 => h (hstep.2 (Or.inr h1))
        rw [(h3 k).2 hlater, hs.2 hnow]
  | case3 i a hi =>
    refine ⟨a, ?_, rfl, ?_⟩
    · rw [divisorLoop, if_neg hi]
    · intro k
      exact ⟨fun h => absurd h (strikesFrom_done hi), fun _ => rfl⟩

/-- The effect of one worker on the global state. -/
theorem threadPartialSieve_spec (rank : Nat) (g : Globals) (hT : 0 < g.numberOfThreads) :
    ∃ a', threadPartialSieve rank g = some { g with isPrimeArray := a' } ∧
      a'.length = g.isPrimeArray.length ∧
      ∀ k, (StrikesFrom g.globalN g.numberOfThreads rank (rank + 1) k → a'.getD k 0 = FALSE) ∧
        (¬ StrikesFrom g.globalN g.numberOfThreads rank (rank + 1) k →
          a'.getD k 0 = g.isPrimeArray.getD k 0) := by
  obtain ⟨a', h1, h2, h3⟩ :=
    divisorLoop_spec g.globalN g.numberOfThreads rank hT (rank + 1) g.isPrimeArray
  refine ⟨a', ?_, h2, h3⟩
  rw [threadPartialSieve, h1]
  rfl

/-- The effect of the workers `rank, rank + 1, ..., T - 1` run one after the other. -/
theorem runThreads_spec (T : Nat) (hT : 0 < T) (rank : Nat) (g : Globals)
    (hg : g.numberOfThreads = T) :
    ∃ a', runThreads T rank g = some { g with isPrimeArray := a' } ∧
      a'.length = g.isPrimeArray.length ∧
      ∀ k, ((∃ r, rank ≤ r ∧ r < T ∧ StrikesFrom g.globalN T r (r + 1) k) →
          a'.getD k 0 = FALSE) ∧
        ((¬ ∃ r, rank ≤ r ∧ r < T ∧ StrikesFrom g.globalN T r (r + 1) k) →
          a'.getD k 0 = g.isPrimeArray.getD k 0) := by
  induction rank, g using runThreads.induct T with
  | case1 rank g hr hnone =>
    obtain ⟨a', h1, _⟩ := threadPartialSieve_spec rank g (by omega)
    rw [h1] at hnone
    exact absurd hnone (by simp)
  | case2 rank g hr g1 hsome ih =>
    obtain ⟨a1, h1, h2, h3⟩ := threadPartialSieve_spec rank g (by omega)
    rw [h1] at hsome
    have hg1 : g1 = { g with isPrimeArray := a1 } := (Option.some.inj hsome).symm
    subst hg1
    obtain ⟨a', h4, h5, h6⟩ := ih hg
    refine ⟨a', ?_, ?_, ?_⟩
    · rw [runThreads, if_pos hr, h1]
      exact h4
    · rw [h5]
      exact h2
    · intro k
      rw [hg] at h3
      have hsplit : (∃ r, rank ≤ r ∧ r < T ∧ StrikesFrom g.globalN T r (r + 1) k) ↔
          (StrikesFrom g.globalN T rank (rank + 1) k ∨
            ∃ r, rank + 1 ≤ r ∧ r < T ∧ StrikesFrom g.globalN T r (r + 1) k) := by
        constructor
        · rintro ⟨r, hr1, hr2, hr3⟩
          rcases Nat.eq_or_lt_of_le hr1 with h | h
          · subst h
            exact Or.inl hr3
          · exact Or.inr ⟨r, h, hr2, hr3⟩
        · rintro (h | ⟨r, hr1, hr2, hr3⟩)
          · exact ⟨rank, le_refl _, hr, h⟩
          · exact ⟨r, by omega, hr2, hr3⟩
      constructor
      · intro h
        by_cases hlater : ∃ r, rank + 1 ≤ r ∧ r < T ∧ StrikesFrom g.globalN T r (r + 1) k
        · exact (h6 k).1 hlater
        · have := (h6 k).2 hlater
          simp only at this
          rw [this]
          rcases hsplit.1 h with h | h
          · exact (h3 k).1 h
          · exact absurd h hlater
      · intro h
        have hnow : ¬ StrikesFrom g.globalN T rank (rank + 1) k :=
          fun h1 => h (hsplit.2 (Or.inl h1))
        have hlater : ¬ ∃ r, rank + 1 ≤ r ∧ r < T ∧ StrikesFrom g.globalN T r (r + 1) k :=
          fun h1 => h (hsplit.2 (Or.inr h1))
        have := (h6 k).2 hlater
        simp only at this
        rw [this, (h3 k).2 hnow]
  | case3 rank g hr =>
    refine ⟨g.isPrimeArray, ?_, rfl, ?_⟩
    · rw [runThreads, if_neg hr]
    · intro k
      refine ⟨?_, fun _ => rfl⟩
      rintro ⟨r, h1, h2, _⟩
      omega

/-! ## What all workers together strike -/

/-- Some worker strikes slot `k` exactly when `k + 1` is a composite number up to `n`. -/
theorem struck_iff_composite (n T : Nat) (hT : 0 < T) (k : Nat) :
    (∃ r, 0 ≤ r ∧ r < T ∧ StrikesFrom n T r (r + 1) k) ↔
      (k < n ∧ 2 ≤ k + 1 ∧ ¬ Nat.Prime (k + 1)) := by
  constructor
  · rintro ⟨r, _, _, i, hi1, _, _, _, hik, hkn, hdvd⟩
    refine ⟨hkn, by omega, ?_⟩
    intro hp
    rcases (Nat.dvd_prime hp).1 hdvd with h | h <;> omega
  · rintro ⟨hkn, hk2, hnp⟩
    have hp : Nat.Prime (Nat.minFac (k + 1)) := Nat.minFac_prime (by omega)
    have hdvd : Nat.minFac (k + 1) ∣ k + 1 := Nat.minFac_dvd _
    have hsq : Nat.minFac (k + 1) ^ 2 ≤ k + 1 := Nat.minFac_sq_le_self (by omega) hnp
    have hlt : Nat.minFac (k + 1) < k + 1 := by
      rcases Nat.lt_or_ge (Nat.minFac (k + 1)) (k + 1) with h | h
      · exact h
      · have hle := Nat.minFac_le (n := k + 1) (by omega)
        have : Nat.minFac (k + 1) = k + 1 := by omega
        exact absurd (this ▸ hp) hnp
    obtain ⟨i, hi⟩ : ∃ i, Nat.minFac (k + 1) = i + 2 := ⟨Nat.minFac (k + 1) - 2, by
      have := hp.two_le
      omega⟩
    rw [hi] at hp hdvd hsq hlt
    have hmod : i % T < T := Nat.mod_lt _ hT
    have hmodle : i % T ≤ i := Nat.mod_le _ _
    refine ⟨i % T, Nat.zero_le _, hmod, i + 1, by omega, ?_, ?_, ?_, by omega, hkn, hdvd⟩
    · refine ⟨i / T, ?_⟩
      have := Nat.mod_add_div i T
      omega
    · have : (i + 1) * (i + 1) < (i + 2) ^ 2 := by nlinarith
      omega
    · rintro ⟨h1, h2⟩
      have h2dvd : 2 ∣ i + 2 := by omega
      have : 2 = i + 2 := (Nat.prime_dvd_prime_iff_eq Nat.prime_two hp).1 h2dvd
      have hi0 : i = 0 := by omega
      subst hi0
      simp at h1

theorem flagSelected_sieved (a : List Nat) (n : Nat)
    (ha : ∀ k, k < n → (a.getD k 0 = TRUE ↔ (k + 1 = 1 ∨ Nat.Prime (k + 1)))) (i : Nat) :
    flagSelected a n i =
      (List.range' (i + 1) (n - i)).filter fun m => decide (m = 1 ∨ Nat.Prime m) := by
  induction i using flagSelected.induct a n with
  | case1 i hi hsel ih =>
    have hp := (ha i hi).1 hsel
    rw [flagSelected_take hi hsel, ih]
    obtain ⟨d, hd⟩ : ∃ d, n - i = d + 1 := ⟨n - i - 1, by omega⟩
    have hd1 : n - (i + 1) = d := by omega
    rw [hd, hd1, List.range'_succ, List.filter_cons_of_pos (by simpa using hp)]
  | case2 i hi hsel ih =>
    have hp : ¬ (i + 1 = 1 ∨ Nat.Prime (i + 1)) := fun hp => hsel ((ha i hi).2 hp)
    rw [flagSelected_skip hi hsel, ih]
    obtain ⟨d, hd⟩ : ∃ d, n - i = d + 1 := ⟨n - i - 1, by omega⟩
    have hd1 : n - (i + 1) = d := by omega
    rw [hd, hd1, List.range'_succ, List.filter_cons_of_neg (by simpa using hp)]
  | case3 i hi =>
    rw [flagSelected_done hi]
    have : n - i = 0 := by omega
    simp [this]

/-- The flag array the workers leave behind: slot `k` is `TRUE` exactly when `k + 1` is 1
or a prime. -/
theorem runThreads_flags (n T : Nat) (hT : 0 < T) :
    ∃ a', runThreads T 0 ⟨List.replicate n TRUE, T, n⟩ = some ⟨a', T, n⟩ ∧ a'.length = n ∧
      ∀ k, k < n → (a'.getD k 0 = TRUE ↔ (k + 1 = 1 ∨ Nat.Prime (k + 1))) := by
  obtain ⟨a', h1, h2, h3⟩ := runThreads_spec T hT 0 ⟨List.replicate n TRUE, T, n⟩ rfl
  refine ⟨a', h1, by simpa using h2, ?_⟩
  intro k hk
  have hiff := struck_iff_composite n T hT k
  by_cases hc : k < n ∧ 2 ≤ k + 1 ∧ ¬ Nat.Prime (k + 1)
  · have := (h3 k).1 (hiff.2 hc)
    rw [this]
    constructor
    · intro h
      simp [TRUE, FALSE] at h
    · rintro (h | h)
      · omega
      · exact absurd h hc.2.2
  · have hns : ¬ ∃ r, 0 ≤ r ∧ r < T ∧ StrikesFrom n T r (r + 1) k := fun h => hc (hiff.1 h)
    have := (h3 k).2 hns
    rw [this]
    have hT1 : (List.replicate n TRUE).getD k 0 = TRUE := by
      simp [List.getD_eq_getElem?_getD, hk]
    simp only [hT1, true_iff]
    by_contra hcon
    push_neg at hcon
    exact hc ⟨hk, by omega, hcon.2⟩

/-- The closed form of `pth_eratosthenesPrime` for at least one thread. -/
theorem pth_eratosthenesPrime_eq (n : Nat) (g : Globals) (hT : 0 < g.numberOfThreads) :
    ∃ a', pth_eratosthenesPrime n g =
      some ({ primes := (oneAndPrimes n).map some, size := (oneAndPrimes n).length,
              writes := List.range (oneAndPrimes n).length },
            { isPrimeArray := a', numberOfThreads := g.numberOfThreads, globalN := n }) := by
  obtain ⟨a', h1, h2, h3⟩ := runThreads_flags n g.numberOfThreads hT
  refine ⟨a', ?_⟩
  have hsel : flagSelected a' n 0 = oneAndPrimes n := by
    rw [flagSelected_sieved a' n h3 0]
    rfl
  simp only [pth_eratosthenesPrime, h1, flagCountLoop_eq, flagFillLoop_eq, hsel, Nat.zero_add,
    storeAll_replicate, List.nil_append, List.range_eq_range']

theorem oneAndPrimes_eq (n : Nat) (hn : 1 ≤ n) : oneAndPrimes n = 1 :: primesUpTo n := by
  obtain ⟨m, rfl⟩ : ∃ m, n = m + 1 := ⟨n - 1, by omega⟩
  have h1 : oneAndPrimes (m + 1) =
      1 :: (List.range' 2 m).filter fun p => decide (p = 1 ∨ Nat.Prime p) := by
    rw [oneAndPrimes, List.range'_succ, List.filter_cons_of_pos (by simp)]
  have h2 : primesUpTo (m + 1) = (List.range' 2 m).filter fun p => decide (Nat.Prime p) := by
    rw [primesUpTo, List.range_eq_range', List.range'_succ, List.range'_succ,
      List.filter_cons_of_neg (by simp [Nat.not_prime_zero]),
      List.filter_cons_of_neg (by simp [Nat.not_prime_one])]
  rw [h1, h2]
  congr 1
  apply List.filter_congr
  intro p hp
  have : 2 ≤ p := (List.mem_range'_1.1 hp).1
  have hne : p ≠ 1 := by omega
  simp [hne]

theorem primesUpTo_sorted (n : Nat) : (primesUpTo n).Pairwise (· < ·) :=
  List.Pairwise.filter _ (List.pairwise_lt_range _)

theorem oneAndPrimes_sorted (n : Nat) : (oneAndPrimes n).Pairwise (· < ·) :=
  List.Pairwise.filter _ (List.pairwise_lt_range' _ _)

theorem mem_primesUpTo (n p : Nat) : p ∈ primesUpTo n ↔ Nat.Prime p ∧ p ≤ n := by
  simp [primesUpTo, List.mem_filter, List.mem_range]
  constructor
  · rintro ⟨a, b⟩; exact ⟨b, by omega⟩
  · rintro ⟨a, b⟩; exact ⟨by omega, a⟩

theorem count_eq_length_filter_range (p : Nat → Prop) [DecidablePred p] (n : Nat) :
    Nat.count p n = ((List.range n).filter fun x => decide (p x)).length := by
  induction n with
  | zero => simp
  | succ n ih =>
    rw [Nat.count_succ, List.range_succ, List.filter_append, List.length_append, ih]
    by_cases h : p n <;> simp [h]

theorem length_primesUpTo (n : Nat) : (primesUpTo n).length = Nat.primeCounting n := by
  rw [Nat.primeCounting, Nat.primeCounting', count_eq_length_filter_range]
  rfl

theorem length_oneAndPrimes_le (n : Nat) : (oneAndPrimes n).length ≤ n := by
  have := List.length_filter_le (fun m => decide (m = 1 ∨ Nat.Prime m)) (List.range' 1 n)
  simpa [oneAndPrimes] using this

theorem length_oneAndPrimes_lt (n : Nat) (hn : 3 < n) : (oneAndPrimes n).length < n := by
  have h4 : ¬ Nat.Prime 4 := by decide
  have : ((List.range' 1 n).filter fun m => decide (m = 1 ∨ Nat.Prime m)).length <
      (List.range' 1 n).length := by
    rw [List.length_filter_lt_length_iff_exists]
    refine ⟨4, List.mem_range'_1.2 ⟨by omega, by omega⟩, ?_⟩
    simp [h4]
  simpa [oneAndPrimes] using this



/-! ## Calls and the global variables -/

/-- With no thread at all the create and join loops do nothing. -/
theorem runThreads_zero (g : Globals) : runThreads 0 0 g = some g := by
  rw [runThreads, if_neg (by omega)]

/-- The body of `pth_eratosthenesPrime` after the join loop. -/
theorem pth_eratosthenesPrime_after_join (n : Nat) (g g3 : Globals)
    (hrun : runThreads g.numberOfThreads 0
      { isPrimeArray := List.replicate n TRUE, numberOfThreads := g.numberOfThreads,
        globalN := n } = some g3) :
    pth_eratosthenesPrime n g =
      some ({ primes := (flagFillLoop g3.isPrimeArray n 0 0
                (List.replicate (flagCountLoop g3.isPrimeArray n 0 0) none) []).1,
              size := flagCountLoop g3.isPrimeArray n 0 0,
              writes := (flagFillLoop g3.isPrimeArray n 0 0
                (List.replicate (flagCountLoop g3.isPrimeArray n 0 0) none) []).2 }, g3) := by
  simp only [pth_eratosthenesPrime, hrun]

/-- The call `pth_eratosthenesPrime` returns, and leaves `numberOfThreads` as it was. -/
theorem pth_eratosthenesPrime_returns (n : Nat) (g : Globals) :
    ∃ r g1, pth_eratosthenesPrime n g = some (r, g1) ∧
      g1.numberOfThreads = g.numberOfThreads := by
  rcases Nat.eq_zero_or_pos g.numberOfThreads with h0 | hpos
  · have hrun : runThreads g.numberOfThreads 0
        { isPrimeArray := List.replicate n TRUE, numberOfThreads := g.numberOfThreads,
          globalN := n } =
        some { isPrimeArray := List.replicate n TRUE, numberOfThreads := g.numberOfThreads,
               globalN := n } := by
      rw [h0]
      exact runThreads_zero _
    exact ⟨_, _, pth_eratosthenesPrime_after_join n g _ hrun, rfl⟩
  · obtain ⟨a1, h⟩ := pth_eratosthenesPrime_eq n g hpos
    exact ⟨_, _, h, rfl⟩

/-- The call `pth_eratosthenesPrime` reads nothing of the global state but
`numberOfThreads`. -/
theorem pth_eratosthenesPrime_congr (n : Nat) (g g1 : Globals)
    (h : g.numberOfThreads = g1.numberOfThreads) :
    pth_eratosthenesPrime n g = pth_eratosthenesPrime n g1 := by
  simp only [pth_eratosthenesPrime, h]

theorem call_returns (c : Call) (g : Globals) :
    ∃ out g1, call c g = some (out, g1) ∧ g1.numberOfThreads = g.numberOfThreads := by
  cases c with
  | full n => exact ⟨_, _, rfl, rfl⟩
  | prime n => exact ⟨_, _, rfl, rfl⟩
  | pth n =>
    obtain ⟨r, g1, h1, h2⟩ := pth_eratosthenesPrime_returns n g
    refine ⟨Output.primes r, g1, ?_, h2⟩
    simp [call, h1]

theorem call_congr (c : Call) (g g1 : Globals) (h : g.numberOfThreads = g1.numberOfThreads) :
    (call c g).map Prod.fst = (call c g1).map Prod.fst := by
  cases c with
  | full n => rfl
  | prime n => rfl
  | pth n => simp only [call, pth_eratosthenesPrime_congr n g g1 h]

/-! ## The claims -/

/-- C1. For every bound `N` (in particular every `N ≥ 1`) and every number of threads
`T ≥ 1` (in particular `T` in `{1, 2, 4, 8}`), `pth_eratosthenesPrime(N)` returns, and the
array and the count it returns are those returned by `eratosthenesPrime(N)`. -/
theorem parallel_agrees_with_sequential (N T : Nat) (hT : 1 ≤ T) (g : Globals)
    (hg : g.numberOfThreads = T) :
    ∃ r g1, pth_eratosthenesPrime N g = some (r, g1) ∧
      r.primes = (eratosthenesPrime N).primes ∧ r.size = (eratosthenesPrime N).size := by
  obtain ⟨a1, h⟩ := pth_eratosthenesPrime_eq N g (by omega)
  refine ⟨_, _, h, ?_, ?_⟩ <;> rw [eratosthenesPrime_eq]

theorem parallel_agrees_with_sequential_witness :
    (1 ≤ 4) ∧ (Globals.mk [] 4 0).numberOfThreads = 4 ∧
      ∃ r g1, pth_eratosthenesPrime 10 (Globals.mk [] 4 0) = some (r, g1) ∧
        r.primes = (eratosthenesPrime 10).primes ∧ r.size = (eratosthenesPrime 10).size :=
  ⟨by decide, rfl,
    parallel_agrees_with_sequential 10 4 (by decide) (Globals.mk [] 4 0) rfl⟩

/-- C2, as stated, fails: for `N = 1` and four threads `pth_eratosthenesPrime` returns
the one-element array `[1]` with count 1, not the empty list, and 1 is not a prime. -/
theorem parallel_bound_one_gives_one :
    (pth_eratosthenesPrime 1 (Globals.mk [] 4 0)).map (fun x => (x.1.primes, x.1.size)) =
        some ([some 1], 1) ∧
      ¬ Nat.Prime 1 := by
  refine ⟨?_, Nat.not_prime_one⟩
  simp [pth_eratosthenesPrime, runThreads, threadPartialSieve, divisorLoop, strikeLoop,
    flagCountLoop, flagFillLoop, List.replicate, TRUE, FALSE]

/-- C2, amended. For every `N ≥ 1` and every number of threads `T ≥ 1`,
`pth_eratosthenesPrime(N)` returns 1 followed by exactly the primes `p ≤ N` in increasing
order, every cell of the array written, and the count is one more than the number of
primes up to `N`. With the same threads, `N = 1` gives `[1]`, `N = 2` gives `[1,2]`,
`N = 3` gives `[1,2,3]`, `N = 30` gives `[1,2,3,5,7,11,13,17,19,23,29]` with count 11, and
`N = 100` gives count 26 with last element 97. -/
theorem parallel_returns_one_then_primes (N : Nat) (g : Globals) (hN : 1 ≤ N)
    (hT : 1 ≤ g.numberOfThreads) :
    (∃ r g1, pth_eratosthenesPrime N g = some (r, g1) ∧
      r.primes = (1 :: primesUpTo N).map some ∧
      r.size = Nat.primeCounting N + 1 ∧
      (primesUpTo N).Pairwise (· < ·) ∧
      ∀ p, p ∈ primesUpTo N ↔ (Nat.Prime p ∧ p ≤ N)) ∧
    (∃ r g1, pth_eratosthenesPrime 1 g = some (r, g1) ∧ r.primes = [some 1] ∧ r.size = 1) ∧
    (∃ r g1, pth_eratosthenesPrime 2 g = some (r, g1) ∧ r.primes = [some 1, some 2] ∧
      r.size = 2) ∧
    (∃ r g1, pth_eratosthenesPrime 3 g = some (r, g1) ∧
      r.primes = [some 1, some 2, some 3] ∧ r.size = 3) ∧
    (∃ r g1, pth_eratosthenesPrime 30 g = some (r, g1) ∧
      r.primes = [1, 2, 3, 5, 7, 11, 13, 17, 19, 23, 29].map some ∧ r.size = 11) ∧
    (∃ r g1, pth_eratosthenesPrime 100 g = some (r, g1) ∧ r.size = 26 ∧
      r.primes.getLast? = some (some 97)) := by
  have h1 : oneAndPrimes 1 = [1] := by decide
  have h2 : oneAndPrimes 2 = [1, 2] := by decide
  have h3 : oneAndPrimes 3 = [1, 2, 3] := by decide
  have h30 : oneAndPrimes 30 = [1, 2, 3, 5, 7, 11, 13, 17, 19, 23, 29] := by decide
  have h100 : oneAndPrimes 100 = [1, 2, 3, 5, 7, 11, 13, 17, 19, 23, 29, 31, 37, 41, 43, 47,
      53, 59, 61, 67, 71, 73, 79, 83, 89, 97] := by decide
  refine ⟨?_, ?_, ?_, ?_, ?_, ?_⟩
  · obtain ⟨a1, h⟩ := pth_eratosthenesPrime_eq N g (by omega)
    refine ⟨_, _, h, ?_, ?_, primesUpTo_sorted N, mem_primesUpTo N⟩
    · rw [oneAndPrimes_eq N hN]
    · simp only [oneAndPrimes_eq N hN, List.length_cons, length_primesUpTo]
  · obtain ⟨a1, h⟩ := pth_eratosthenesPrime_eq 1 g (by omega)
    exact ⟨_, _, h, by rw [h1]; rfl, by rw [h1]; rfl⟩
  · obtain ⟨a1, h⟩ := pth_eratosthenesPrime_eq 2 g (by omega)
    exact ⟨_, _, h, by rw [h2]; rfl, by rw [h2]; rfl⟩
  · obtain ⟨a1, h⟩ := pth_eratosthenesPrime_eq 3 g (by omega)
    exact ⟨_, _, h, by rw [h3]; rfl, by rw [h3]; rfl⟩
  · obtain ⟨a1, h⟩ := pth_eratosthenesPrime_eq 30 g (by omega)
    exact ⟨_, _, h, by rw [h30], by rw [h30]; rfl⟩
  · obtain ⟨a1, h⟩ := pth_eratosthenesPrime_eq 100 g (by omega)
    exact ⟨_, _, h, by rw [h100]; rfl, by rw [h100]; rfl⟩

theorem parallel_returns_one_then_primes_witness :
    (1 ≤ 30) ∧ (1 ≤ (Globals.mk [] 4 0).numberOfThreads) ∧
      ∃ r g1, pth_eratosthenesPrime 30 (Globals.mk [] 4 0) = some (r, g1) ∧
        r.primes = (1 :: primesUpTo 30).map some ∧ r.size = Nat.primeCounting 30 + 1 :=
  ⟨by decide, by decide,
    match (parallel_returns_one_then_primes 30 (Globals.mk [] 4 0) (by decide)
      (by decide)).1 with
    | ⟨r, g1, h, hp, hs, _⟩ => ⟨r, g1, h, hp, hs⟩⟩

/-- C3. For every `N` (in particular every `N ≥ 1`), `eratosthenesFull(N)` returns an
array of length `N` whose slot `i`, for `i < N`, holds the smallest prime factor of `i + 1`:
slot 0 holds 1, and for `i ≥ 1` the value is a prime that divides `i + 1` and is at most
every prime that divides `i + 1`. -/
theorem eratosthenesFull_smallest_prime_factor (N : Nat) :
    (eratosthenesFull N).length = N ∧
      ∀ i, i < N → ∃ v, (eratosthenesFull N)[i]? = some v ∧ v = Nat.minFac (i + 1) ∧
        (i = 0 → v = 1) ∧
        (1 ≤ i → Nat.Prime v ∧ v ∣ i + 1 ∧ ∀ p, Nat.Prime p → p ∣ i + 1 → v ≤ p) := by
  rw [eratosthenesFull_eq]
  refine ⟨by simp, ?_⟩
  intro i hi
  refine ⟨Nat.minFac (i + 1), by simp [hi], rfl, ?_, ?_⟩
  · intro h0
    subst h0
    simp
  · intro h1
    exact ⟨Nat.minFac_prime (by omega), Nat.minFac_dvd _,
      fun p hp hd => Nat.minFac_le_of_dvd hp.two_le hd⟩

theorem eratosthenesFull_smallest_prime_factor_witness :
    (5 < 10) ∧ (1 ≤ 5) ∧ ∃ v, (eratosthenesFull 10)[5]? = some v ∧ v = Nat.minFac (5 + 1) ∧
      Nat.Prime v ∧ v ∣ 5 + 1 :=
  ⟨by decide, by decide,
    match (eratosthenesFull_smallest_prime_factor 10).2 5 (by decide) with
    | ⟨v, h, hv, _, hpos⟩ => ⟨v, h, hv, (hpos (by decide)).1, (hpos (by decide)).2.1⟩⟩

/-- C4, as stated, fails: `eratosthenesPrime(10)` returns `[1,2,3,5,7]` with size 5,
not `[2,3,5,7]` with size 4; its first element 1 is not a prime. -/
theorem sequential_bound_ten_gives_one_first :
    (eratosthenesPrime 10).primes = [some 1, some 2, some 3, some 5, some 7] ∧
      (eratosthenesPrime 10).size = 5 ∧ ¬ Nat.Prime 1 := by
  refine ⟨?_, ?_, Nat.not_prime_one⟩ <;>
    simp [eratosthenesPrime, eratosthenesFull, fullLoop, markLoop, countLoop, fillLoop,
      List.replicate]

/-- C4, amended. For every `N ≥ 1`, `eratosthenesPrime(N)` returns 1 followed by exactly
the primes between 1 and `N` inclusive, in increasing order (every element after the
first is prime and every prime `≤ N` is present), with `*size` one more than their number;
for `N = 10` it returns `[1,2,3,5,7]` with size 5. -/
theorem sequential_returns_one_then_primes (N : Nat) (hN : 1 ≤ N) :
    (eratosthenesPrime N).primes = (1 :: primesUpTo N).map some ∧
      (eratosthenesPrime N).size = Nat.primeCounting N + 1 ∧
      (primesUpTo N).Pairwise (· < ·) ∧
      (∀ p, p ∈ primesUpTo N ↔ (Nat.Prime p ∧ p ≤ N)) ∧
      (eratosthenesPrime 10).primes = [1, 2, 3, 5, 7].map some ∧
      (eratosthenesPrime 10).size = 5 := by
  have h10 : oneAndPrimes 10 = [1, 2, 3, 5, 7] := by decide
  refine ⟨?_, ?_, primesUpTo_sorted N, mem_primesUpTo N, ?_, ?_⟩
  · rw [eratosthenesPrime_eq, oneAndPrimes_eq N hN]
  · simp only [eratosthenesPrime_eq, oneAndPrimes_eq N hN, List.length_cons,
      length_primesUpTo]
  · rw [eratosthenesPrime_eq, h10]
  · rw [eratosthenesPrime_eq, h10]
    rfl

theorem sequential_returns_one_then_primes_witness :
    (1 ≤ 10) ∧ (eratosthenesPrime 10).primes = (1 :: primesUpTo 10).map some ∧
      (eratosthenesPrime 10).size = Nat.primeCounting 10 + 1 :=
  ⟨by decide, (sequential_returns_one_then_primes 10 (by decide)).1,
    (sequential_returns_one_then_primes 10 (by decide)).2.1⟩

/-- C5, as stated, fails: the array `eratosthenesFull(10)` differs from
`[1,2,3,2,5,3,7,2,3,5]` (slots 5 and 9, for the integers 6 and 10, hold 2). -/
theorem scenario_array_of_ten_refuted :
    eratosthenesFull 10 ≠ [1, 2, 3, 2, 5, 3, 7, 2, 3, 5] := by
  simp [eratosthenesFull, fullLoop, markLoop, List.replicate]

/-- C5, amended. The call `eratosthenesFull(10)` returns exactly the array
`[1,2,3,2,5,2,7,2,3,2]`. -/
theorem decomposition_of_ten : eratosthenesFull 10 = [1, 2, 3, 2, 5, 2, 7, 2, 3, 2] := by
  simp [eratosthenesFull, fullLoop, markLoop, List.replicate]

/-- C6. For every `N` and every number of threads `T ≥ 1`, the array returned by
`eratosthenesPrime(N)` and the array returned by `pth_eratosthenesPrime(N)` each hold a
strictly increasing list, hence one without duplicates; for `eratosthenesPrime` the values
picked by the test `sieve[i] >= lastPrime` are strictly increasing, so the test never picks
a value equal to the one picked before. -/
theorem primes_strictly_increasing (N : Nat) (g : Globals) (hT : 1 ≤ g.numberOfThreads) :
    (∃ l : List Nat, (eratosthenesPrime N).primes = l.map some ∧ l.Pairwise (· < ·) ∧ l.Nodup ∧
      selected (eratosthenesFull N) N 0 1 = l) ∧
    (∃ r g1, ∃ l : List Nat, pth_eratosthenesPrime N g = some (r, g1) ∧
      r.primes = l.map some ∧
      l.Pairwise (· < ·) ∧ l.Nodup) := by
  have hs : (oneAndPrimes N).Pairwise (· < ·) := oneAndPrimes_sorted N
  have hn : (oneAndPrimes N).Nodup := hs.imp (fun h => Nat.ne_of_lt h)
  have hsieve : ∀ k, k < N → (eratosthenesFull N).getD k 0 = Nat.minFac (k + 1) := by
    intro k hk
    rw [eratosthenesFull_eq]
    simp [List.getD_eq_getElem?_getD, hk]
  have hinv : ScanInv 0 1 :=
    ⟨le_refl 1, Or.inr rfl, fun p hp hle => absurd hp.two_le (by omega)⟩
  constructor
  · refine ⟨oneAndPrimes N, by rw [eratosthenesPrime_eq], hs, hn, ?_⟩
    rw [selected_minFac _ N hsieve 0 1 hinv]
    rfl
  · obtain ⟨a1, h⟩ := pth_eratosthenesPrime_eq N g (by omega)
    exact ⟨_, _, oneAndPrimes N, h, rfl, hs, hn⟩

theorem primes_strictly_increasing_witness :
    (1 ≤ (Globals.mk [] 4 0).numberOfThreads) ∧
      ∃ r g1, ∃ l : List Nat, pth_eratosthenesPrime 30 (Globals.mk [] 4 0) = some (r, g1) ∧
        r.primes = l.map some ∧ l.Pairwise (· < ·) ∧ l.Nodup :=
  ⟨by decide, (primes_strictly_increasing 30 (Globals.mk [] 4 0) (by decide)).2⟩

/-- C7. For every `N` and every number of threads `T ≥ 1`, the count stored in `*size`
by `eratosthenesPrime(N)` and by `pth_eratosthenesPrime(N)` is at most `N`, and for every
`N > 3` it is strictly less than `N`. -/
theorem size_le_bound (N : Nat) (g : Globals) (hT : 1 ≤ g.numberOfThreads) :
    ((eratosthenesPrime N).size ≤ N ∧ (3 < N → (eratosthenesPrime N).size < N)) ∧
    ∃ r g1, pth_eratosthenesPrime N g = some (r, g1) ∧ r.size ≤ N ∧ (3 < N → r.size < N) := by
  constructor
  · rw [eratosthenesPrime_eq]
    exact ⟨length_oneAndPrimes_le N, length_oneAndPrimes_lt N⟩
  · obtain ⟨a1, h⟩ := pth_eratosthenesPrime_eq N g (by omega)
    exact ⟨_, _, h, length_oneAndPrimes_le N, length_oneAndPrimes_lt N⟩

theorem size_le_bound_witness :
    (1 ≤ (Globals.mk [] 4 0).numberOfThreads) ∧ (3 < 10) ∧
      ((eratosthenesPrime 10).size ≤ 10 ∧ (eratosthenesPrime 10).size < 10) ∧
      ∃ r g1, pth_eratosthenesPrime 10 (Globals.mk [] 4 0) = some (r, g1) ∧ r.size ≤ 10 ∧
        r.size < 10 :=
  ⟨by decide, by decide,
    ⟨(size_le_bound 10 (Globals.mk [] 4 0) (by decide)).1.1,
      (size_le_bound 10 (Globals.mk [] 4 0) (by decide)).1.2 (by decide)⟩,
    match (size_le_bound 10 (Globals.mk [] 4 0) (by decide)).2 with
    | ⟨r, g1, h, hle, hlt⟩ => ⟨r, g1, h, hle, hlt (by decide)⟩⟩

/-- C8. For every `N` and every number of threads `T ≥ 1`, in `eratosthenesPrime` and in
`pth_eratosthenesPrime` the fill pass stores at the indices `0, 1, ..., size - 1` of
`primes`, in this order and once each, where `size` is the value the count pass computed
and stored in `*size`; the array has `size` cells and none of them is left unwritten. -/
theorem fill_pass_exact_size (N : Nat) (g : Globals) (hT : 1 ≤ g.numberOfThreads) :
    ((eratosthenesPrime N).size = countLoop (eratosthenesFull N) N 0 1 0 ∧
      (eratosthenesPrime N).writes = List.range (eratosthenesPrime N).size ∧
      (eratosthenesPrime N).primes.length = (eratosthenesPrime N).size ∧
      ∀ c, c ∈ (eratosthenesPrime N).primes → c ≠ none) ∧
    ∃ r g1, pth_eratosthenesPrime N g = some (r, g1) ∧
      r.size = flagCountLoop g1.isPrimeArray N 0 0 ∧
      r.writes = List.range r.size ∧ r.primes.length = r.size ∧
      ∀ c, c ∈ r.primes → c ≠ none := by
  constructor
  · refine ⟨rfl, ?_, ?_, ?_⟩
    · rw [eratosthenesPrime_eq]
    · rw [eratosthenesPrime_eq]
      simp
    · rw [eratosthenesPrime_eq]
      intro c hc
      obtain ⟨v, _, rfl⟩ := List.mem_map.1 hc
      simp
  · obtain ⟨a1, hrun, _, _⟩ := runThreads_flags N g.numberOfThreads (by omega)
    refine ⟨_, _, pth_eratosthenesPrime_after_join N g _ hrun, rfl, ?_, ?_, ?_⟩
    · simp only [flagCountLoop_eq, flagFillLoop_eq, Nat.zero_add, List.nil_append,
        List.range_eq_range']
    · simp only [flagCountLoop_eq, flagFillLoop_eq, Nat.zero_add, storeAll_replicate,
        List.length_map]
    · simp only [flagCountLoop_eq, flagFillLoop_eq, Nat.zero_add, storeAll_replicate]
      intro c hc
      obtain ⟨v, _, rfl⟩ := List.mem_map.1 hc
      simp

theorem fill_pass_exact_size_witness :
    (1 ≤ (Globals.mk [] 4 0).numberOfThreads) ∧
      (eratosthenesPrime 10).writes = List.range (eratosthenesPrime 10).size ∧
      ∃ r g1, pth_eratosthenesPrime 10 (Globals.mk [] 4 0) = some (r, g1) ∧
        r.writes = List.range r.size ∧ r.primes.length = r.size :=
  ⟨by decide, (fill_pass_exact_size 10 (Globals.mk [] 4 0) (by decide)).1.2.1,
    match (fill_pass_exact_size 10 (Globals.mk [] 4 0) (by decide)).2 with
    | ⟨r, g1, h, _, hw, hl, _⟩ => ⟨r, g1, h, hw, hl⟩⟩

/-- C10. Every call of `eratosthenesFull(N)`, `eratosthenesPrime(N)` or
`pth_eratosthenesPrime(N)` returns, and its output does not depend on the values of
`isPrimeArray` and `globalN` left by earlier calls: from any two global states with the same
`numberOfThreads` the call returns the same output, and the same call made again in the
state the first one left returns that output once more. -/
theorem call_output_independent_of_globals (c : Call) (g g1 : Globals)
    (h : g.numberOfThreads = g1.numberOfThreads) :
    ∃ out s s1 s2, call c g = some (out, s) ∧ call c g1 = some (out, s1) ∧
      call c s = some (out, s2) := by
  obtain ⟨out, s, h1, hs⟩ := call_returns c g
  obtain ⟨out1, s1, h2, _⟩ := call_returns c g1
  obtain ⟨out2, s2, h3, _⟩ := call_returns c s
  have e1 := call_congr c g g1 h
  have e2 := call_congr c g s hs.symm
  rw [h1, h2] at e1
  rw [h1, h3] at e2
  simp only [Option.map_some', Option.some.injEq] at e1 e2
  subst e1
  subst e2
  exact ⟨out, s, s1, s2, h1, h2, h3⟩

theorem call_output_independent_of_globals_witness :
    (Globals.mk [] 4 0).numberOfThreads = (Globals.mk [0, 0, 1] 4 77).numberOfThreads ∧
      ∃ out s s1 s2, call (Call.pth 10) (Globals.mk [] 4 0) = some (out, s) ∧
        call (Call.pth 10) (Globals.mk [0, 0, 1] 4 77) = some (out, s1) ∧
        call (Call.pth 10) s = some (out, s2) :=
  ⟨rfl, call_output_independent_of_globals (Call.pth 10) (Globals.mk [] 4 0)
    (Globals.mk [0, 0, 1] 4 77) rfl⟩

/-! ## Workers run in a given order -/

theorem ext_of_getD {l1 l2 : List Nat} (hlen : l1.length = l2.length)
    (h : ∀ k, k < l1.length → l1.getD k 0 = l2.getD k 0) : l1 = l2 := by
  apply List.ext_getElem hlen
  intro k h1 h2
  have := h k h1
  rw [List.getD_eq_getElem?_getD, List.getD_eq_getElem?_getD, List.getElem?_eq_getElem h1,
    List.getElem?_eq_getElem h2] at this
  simpa using this

/-- If each worker stores `FALSE` exactly into the slots `S n T r` names and changes
nothing else, then the workers of `ranks`, run in this order, store `FALSE` exactly into
the slots some rank of the list names. -/
theorem runWorkers_spec (worker : Nat → Globals → Option Globals)
    (S : Nat → Nat → Nat → Nat → Prop)
    (hw : ∀ r g, 0 < g.numberOfThreads →
      ∃ a', worker r g = some { g with isPrimeArray := a' } ∧
        a'.length = g.isPrimeArray.length ∧
        ∀ k, (S g.globalN g.numberOfThreads r k → a'.getD k 0 = FALSE) ∧
          (¬ S g.globalN g.numberOfThreads r k → a'.getD k 0 = g.isPrimeArray.getD k 0))
    (ranks : List Nat) (g : Globals) (hT : 0 < g.numberOfThreads) :
    ∃ a', runWorkers worker ranks g = some { g with isPrimeArray := a' } ∧
      a'.length = g.isPrimeArray.length ∧
      ∀ k, ((∃ r, r ∈ ranks ∧ S g.globalN g.numberOfThreads r k) → a'.getD k 0 = FALSE) ∧
        ((¬ ∃ r, r ∈ ranks ∧ S g.globalN g.numberOfThreads r k) →
          a'.getD k 0 = g.isPrimeArray.getD k 0) := by
  induction ranks generalizing g with
  | nil =>
    refine ⟨g.isPrimeArray, rfl, rfl, ?_⟩
    intro k
    refine ⟨?_, fun _ => rfl⟩
    rintro ⟨r, hr, _⟩
    simp at hr
  | cons r rs ih =>
    obtain ⟨a1, h1, h2, h3⟩ := hw r g hT
    obtain ⟨a', h4, h5, h6⟩ := ih { g with isPrimeArray := a1 } hT
    refine ⟨a', ?_, ?_, ?_⟩
    · simp only [runWorkers, h1]
      exact h4
    · rw [h5]
      exact h2
    · intro k
      have h6k := h6 k
      simp only at h6k
      constructor
      · rintro ⟨r1, hr1, hs⟩
        by_cases hlater : ∃ r, r ∈ rs ∧ S g.globalN g.numberOfThreads r k
        · exact h6k.1 hlater
        · rw [h6k.2 hlater]
          rcases List.mem_cons.1 hr1 with h | h
          · subst h
            exact (h3 k).1 hs
          · exact absurd ⟨r1, h, hs⟩ hlater
      · intro hnone
        have hnow : ¬ S g.globalN g.numberOfThreads r k :=
          fun h => hnone ⟨r, List.mem_cons_self _ _, h⟩
        have hlater : ¬ ∃ r, r ∈ rs ∧ S g.globalN g.numberOfThreads r k := by
          rintro ⟨r1, hr1, hs⟩
          exact hnone ⟨r1, List.mem_cons_of_mem _ hr1, hs⟩
        rw [h6k.2 hlater, (h3 k).2 hnow]

/-- The workers as written, run in the order `ranks`. -/
theorem runWorkers_threadPartialSieve (ranks : List Nat) (g : Globals)
    (hT : 0 < g.numberOfThreads) :
    ∃ a', runWorkers threadPartialSieve ranks g = some { g with isPrimeArray := a' } ∧
      a'.length = g.isPrimeArray.length ∧
      ∀ k, ((∃ r, r ∈ ranks ∧ StrikesFrom g.globalN g.numberOfThreads r (r + 1) k) →
          a'.getD k 0 = FALSE) ∧
        ((¬ ∃ r, r ∈ ranks ∧ StrikesFrom g.globalN g.numberOfThreads r (r + 1) k) →
          a'.getD k 0 = g.isPrimeArray.getD k 0) :=
  runWorkers_spec threadPartialSieve (fun n T r k => StrikesFrom n T r (r + 1) k)
    (fun r g hT => threadPartialSieve_spec r g hT) ranks g hT

/-- The create and join loops are the workers run in the order `rank, ..., T - 1`. -/
theorem runThreads_eq_runWorkers (T rank : Nat) (g : Globals) :
    runThreads T rank g = runWorkers threadPartialSieve (List.range' rank (T - rank)) g := by
  induction rank, g using runThreads.induct T with
  | case1 rank g hr hnone =>
    obtain ⟨d, hd⟩ : ∃ d, T - rank = d + 1 := ⟨T - rank - 1, by omega⟩
    rw [runThreads, if_pos hr, hd, List.range'_succ]
    simp only [runWorkers, hnone]
  | case2 rank g hr g1 hsome ih =>
    obtain ⟨d, hd⟩ : ∃ d, T - rank = d + 1 := ⟨T - rank - 1, by omega⟩
    have hd1 : T - (rank + 1) = d := by omega
    rw [runThreads, if_pos hr, hd, List.range'_succ]
    simp only [runWorkers, hsome]
    rw [ih, hd1]
  | case3 rank g hr =>
    have hd : T - rank = 0 := by omega
    rw [runThreads, if_neg hr, hd]
    rfl

/-- The function `pth_eratosthenesPrime` is `pthWith` for the worker as written and the
ranks `0, ..., numberOfThreads - 1`. -/
theorem pth_eratosthenesPrime_eq_pthWith (n : Nat) (g : Globals) :
    pth_eratosthenesPrime n g =
      pthWith threadPartialSieve (List.range g.numberOfThreads) n g := by
  simp only [pth_eratosthenesPrime, pthWith, runThreads_eq_runWorkers, Nat.sub_zero,
    List.range_eq_range']

/-- The body of `pthWith` after the workers have run. -/
theorem pthWith_after (worker : Nat → Globals → Option Globals) (ranks : List Nat) (n : Nat)
    (g g3 : Globals)
    (hrun : runWorkers worker ranks
      { isPrimeArray := List.replicate n TRUE, numberOfThreads := g.numberOfThreads,
        globalN := n } = some g3) :
    pthWith worker ranks n g =
      some ({ primes := (flagSelected g3.isPrimeArray n 0).map some,
              size := (flagSelected g3.isPrimeArray n 0).length,
              writes := List.range (flagSelected g3.isPrimeArray n 0).length }, g3) := by
  simp only [pthWith, hrun, flagCountLoop_eq, flagFillLoop_eq, Nat.zero_add,
    storeAll_replicate, List.nil_append, List.range_eq_range']

theorem mem_flagSelected (a : List Nat) (n i m : Nat) :
    m ∈ flagSelected a n i ↔ ∃ k, i ≤ k ∧ k < n ∧ a.getD k 0 = TRUE ∧ m = k + 1 := by
  induction i using flagSelected.induct a n with
  | case1 i hi hsel ih =>
    rw [flagSelected_take hi hsel, List.mem_cons, ih]
    constructor
    · rintro (h | ⟨k, h1, h2, h3, h4⟩)
      · exact ⟨i, le_refl i, hi, hsel, h⟩
      · exact ⟨k, by omega, h2, h3, h4⟩
    · rintro ⟨k, h1, h2, h3, h4⟩
      rcases Nat.eq_or_lt_of_le h1 with h | h
      · left
        rw [h4, ← h]
      · exact Or.inr ⟨k, h, h2, h3, h4⟩
  | case2 i hi hsel ih =>
    rw [flagSelected_skip hi hsel, ih]
    constructor
    · rintro ⟨k, h1, h2, h3, h4⟩
      exact ⟨k, by omega, h2, h3, h4⟩
    · rintro ⟨k, h1, h2, h3, h4⟩
      rcases Nat.eq_or_lt_of_le h1 with h | h
      · subst h
        exact absurd h3 hsel
      · exact ⟨k, h, h2, h3, h4⟩
  | case3 i hi =>
    rw [flagSelected_done hi]
    simp only [List.not_mem_nil, false_iff]
    rintro ⟨k, h1, h2, _⟩
    omega


/-! ## The worker without the early exit -/

theorem strikeLoopNoBreak_eq (n i j : Nat) (a : List Nat) :
    strikeLoopNoBreak n i j a = strikeLoop n i i j a := by
  induction j, a using strikeLoopNoBreak.induct n i with
  | case1 j a hj ih =>
    simp only [dite_eq_ite] at ih
    have hb : ¬ (i > i + 1 ∧ (i + 1) % 2 = 0) := by omega
    rw [strikeLoopNoBreak, if_pos hj, ih]
    conv_rhs => rw [strikeLoop, if_pos hj, if_neg hb]
  | case2 j a hj =>
    rw [strikeLoopNoBreak, if_neg hj, strikeLoop, if_neg hj]

theorem strikeLoopNoBreak_length (n i j : Nat) (a : List Nat) :
    (strikeLoopNoBreak n i j a).length = a.length := by
  rw [strikeLoopNoBreak_eq, strikeLoop_length]

theorem strikeLoopNoBreak_spec (n i : Nat) (a : List Nat) (k : Nat) :
    (StrikesNoBreak n i k → (strikeLoopNoBreak n i i a).getD k 0 = FALSE) ∧
    (¬ StrikesNoBreak n i k → (strikeLoopNoBreak n i i a).getD k 0 = a.getD k 0) := by
  have hiff : Strikes n i i k ↔ StrikesNoBreak n i k := by
    unfold Strikes StrikesNoBreak
    constructor
    · rintro ⟨_, h⟩
      exact h
    · intro h
      exact ⟨by omega, h⟩
  rw [strikeLoopNoBreak_eq, ← hiff]
  exact strikeLoop_spec n i i a k

theorem strikesFromNoBreak_step {n T i k : Nat} (hi : i * i < n) :
    StrikesFromNoBreak n T i k ↔
      (StrikesNoBreak n i k ∨ StrikesFromNoBreak n T (i + T) k) := by
  unfold StrikesFromNoBreak
  constructor
  · rintro ⟨i', h1, h2, h3, h4⟩
    rcases (dvd_sub_step h1).1 h2 with h | ⟨ha, hb⟩
    · subst h
      exact Or.inl h4
    · exact Or.inr ⟨i', ha, hb, h3, h4⟩
  · rintro (h | ⟨i', h1, h2, h3, h4⟩)
    · exact ⟨i, le_refl i, by simp, hi, h⟩
    · exact ⟨i', by omega, (dvd_sub_step (by omega)).2 (Or.inr ⟨h1, h2⟩), h3, h4⟩

theorem strikesFromNoBreak_done {n T i k : Nat} (hi : ¬ i * i < n) :
    ¬ StrikesFromNoBreak n T i k := by
  rintro ⟨i', h1, _, h3, _⟩
  have : i * i ≤ i' * i' := Nat.mul_le_mul h1 h1
  omega

theorem divisorLoopNoBreak_spec (n T : Nat) (hT : 0 < T) (i : Nat) (a : List Nat) :
    ∃ a', divisorLoopNoBreak n T i a = some a' ∧ a'.length = a.length ∧
      ∀ k, (StrikesFromNoBreak n T i k → a'.getD k 0 = FALSE) ∧
        (¬ StrikesFromNoBreak n T i k → a'.getD k 0 = a.getD k 0) := by
  induction i, a using divisorLoopNoBreak.induct n T with
  | case1 i a hi hT0 => omega
  | case2 i a hi hT0 ih =>
    obtain ⟨a', h1, h2, h3⟩ := ih
    refine ⟨a', ?_, ?_, ?_⟩
    · rw [divisorLoopNoBreak, if_pos hi, if_neg hT0]
      exact h1
    · rw [h2, strikeLoopNoBreak_length]
    · intro k
      have hstep := @strikesFromNoBreak_step n T i k hi
      have hs := strikeLoopNoBreak_spec n i a k
      constructor
      · intro h
        by_cases hlater : StrikesFromNoBreak n T (i + T) k
        · exact (h3 k).1 hlater
        · rw [(h3 k).2 hlater]
          rcases hstep.1 h with h | h
          · exact hs.1 h
          · exact absurd h hlater
      · intro h
        have hnow : ¬ StrikesNoBreak n i k := fun h1 => h (hstep.2 (Or.inl h1))
        have hlater : ¬ StrikesFromNoBreak n T (i + T) k :=
          fun h1 => h (hstep.2 (Or.inr h1))
        rw [(h3 k).2 hlater, hs.2 hnow]
  | case3 i a hi =>
    refine ⟨a, ?_, rfl, ?_⟩
    · rw [divisorLoopNoBreak, if_neg hi]
    · intro k
      exact ⟨fun h => absurd h (strikesFromNoBreak_done hi), fun _ => rfl⟩

theorem threadPartialSieveNoBreak_spec (rank : Nat) (g : Globals)
    (hT : 0 < g.numberOfThreads) :
    ∃ a', threadPartialSieveNoBreak rank g = some { g with isPrimeArray := a' } ∧
      a'.length = g.isPrimeArray.length ∧
      ∀ k, (StrikesFromNoBreak g.globalN g.numberOfThreads (rank + 1) k →
          a'.getD k 0 = FALSE) ∧
        (¬ StrikesFromNoBreak g.globalN g.numberOfThreads (rank + 1) k →
          a'.getD k 0 = g.isPrimeArray.getD k 0) := by
  obtain ⟨a', h1, h2, h3⟩ :=
    divisorLoopNoBreak_spec g.globalN g.numberOfThreads hT (rank + 1) g.isPrimeArray
  refine ⟨a', ?_, h2, h3⟩
  rw [threadPartialSieveNoBreak, h1]
  rfl

theorem strikesFrom_noBreak {n T rank i k : Nat} (h : StrikesFrom n T rank i k) :
    StrikesFromNoBreak n T i k := by
  obtain ⟨i', h1, h2, h3, _, h4⟩ := h
  exact ⟨i', h1, h2, h3, h4⟩

/-- A slot struck by a divisor index `i' ≥ 1` holds a composite number. -/
theorem composite_of_strikesFromNoBreak {n T i k : Nat} (hi : 1 ≤ i)
    (h : StrikesFromNoBreak n T i k) : k < n ∧ 2 ≤ k + 1 ∧ ¬ Nat.Prime (k + 1) := by
  obtain ⟨i', h1, _, _, hik, hkn, hdvd⟩ := h
  refine ⟨hkn, by omega, ?_⟩
  intro hp
  rcases (Nat.dvd_prime hp).1 hdvd with h | h <;> omega

theorem struck_iff_composite_range (n T : Nat) (hT : 0 < T) (k : Nat) :
    (∃ r, r ∈ List.range T ∧ StrikesFrom n T r (r + 1) k) ↔
      (k < n ∧ 2 ≤ k + 1 ∧ ¬ Nat.Prime (k + 1)) := by
  rw [← struck_iff_composite n T hT k]
  constructor
  · rintro ⟨r, hr, h⟩
    exact ⟨r, Nat.zero_le _, List.mem_range.1 hr, h⟩
  · rintro ⟨r, _, hr, h⟩
    exact ⟨r, List.mem_range.2 hr, h⟩

theorem struckNoBreak_iff_composite_range (n T : Nat) (hT : 0 < T) (k : Nat) :
    (∃ r, r ∈ List.range T ∧ StrikesFromNoBreak n T (r + 1) k) ↔
      (k < n ∧ 2 ≤ k + 1 ∧ ¬ Nat.Prime (k + 1)) := by
  constructor
  · rintro ⟨r, _, h⟩
    exact composite_of_strikesFromNoBreak (by omega) h
  · intro h
    obtain ⟨r, hr, hs⟩ := (struck_iff_composite_range n T hT k).2 h
    exact ⟨r, hr, strikesFrom_noBreak hs⟩

/-! ## The divisor indices a worker visits -/

theorem visitedIndices_spec (n T : Nat) (hT : 0 < T) (i : Nat) :
    ∃ l, visitedIndices n T i = some l ∧
      (∀ x, x ∈ l ↔ (i ≤ x ∧ T ∣ (x - i) ∧ x * x < n)) ∧ l.Pairwise (· < ·) := by
  induction i using visitedIndices.induct n T with
  | case1 i hi hT0 => omega
  | case2 i hi hT0 ih =>
    obtain ⟨l, h1, h2, h3⟩ := ih
    refine ⟨i :: l, ?_, ?_, ?_⟩
    · rw [visitedIndices, if_pos hi, if_neg hT0, h1]
      rfl
    · intro x
      rw [List.mem_cons, h2]
      constructor
      · rintro (h | ⟨ha, hb, hc⟩)
        · subst h
          exact ⟨le_refl _, by simp, hi⟩
        · exact ⟨by omega, (dvd_sub_step (by omega)).2 (Or.inr ⟨ha, hb⟩), hc⟩
      · rintro ⟨ha, hb, hc⟩
        rcases (dvd_sub_step ha).1 hb with h | ⟨h4, h5⟩
        · exact Or.inl h
        · exact Or.inr ⟨h4, h5, hc⟩
    · refine List.pairwise_cons.2 ⟨?_, h3⟩
      intro x hx
      have := ((h2 x).1 hx).1
      omega
  | case3 i hi =>
    refine ⟨[], ?_, ?_, List.Pairwise.nil⟩
    · rw [visitedIndices, if_neg hi]
    · intro x
      simp only [List.not_mem_nil, false_iff]
      rintro ⟨ha, _, hc⟩
      have : i * i ≤ x * x := Nat.mul_le_mul ha ha
      omega

/-- The outer loop of a worker runs its inner loop once for each visited index, in
order. -/
theorem divisorLoop_eq_foldl (n T rank i : Nat) (a : List Nat) :
    divisorLoop n T rank i a =
      (visitedIndices n T i).map fun l => l.foldl (fun b x => strikeLoop n rank x x b) a := by
  induction i, a using divisorLoop.induct n T rank with
  | case1 i a hi hT0 =>
    rw [divisorLoop, if_pos hi, if_pos hT0, visitedIndices, if_pos hi, if_pos hT0]
    rfl
  | case2 i a hi hT0 ih =>
    rw [divisorLoop, if_pos hi, if_neg hT0, ih]
    conv_rhs => rw [visitedIndices, if_pos hi, if_neg hT0]
    cases visitedIndices n T (i + T) <;> rfl
  | case3 i a hi =>
    rw [divisorLoop, if_neg hi, visitedIndices, if_neg hi]
    rfl


/-! ## Stripes of different ranks -/

/-- Two ranks below `T` whose stripes `r + 1, r + 1 + T, ...` share an index are equal. -/
theorem rank_eq_of_common_index {T r s i : Nat} (hr : r < T) (hs : s < T)
    (hri : r + 1 ≤ i) (hsi : s + 1 ≤ i) (hrd : T ∣ (i - (r + 1))) (hsd : T ∣ (i - (s + 1))) :
    r = s := by
  obtain ⟨c, hc⟩ := hrd
  obtain ⟨d, hd⟩ := hsd
  by_contra hne
  rcases Nat.lt_or_gt_of_ne hne with h | h
  · have hdvd : T ∣ (s - r) := by
      have e : s - r = T * c - T * d := by omega
      rw [e]
      exact Nat.dvd_sub' (Dvd.intro c rfl) (Dvd.intro d rfl)
    have := Nat.le_of_dvd (by omega) hdvd
    omega
  · have hdvd : T ∣ (r - s) := by
      have e : r - s = T * d - T * c := by omega
      rw [e]
      exact Nat.dvd_sub' (Dvd.intro d rfl) (Dvd.intro c rfl)
    have := Nat.le_of_dvd (by omega) hdvd
    omega

/-- The order of the ranks, and how often a rank occurs, does not matter. -/
theorem runWorkers_congr (l1 l2 : List Nat) (h : ∀ r, r ∈ l1 ↔ r ∈ l2) (g : Globals)
    (hT : 0 < g.numberOfThreads) :
    runWorkers threadPartialSieve l1 g = runWorkers threadPartialSieve l2 g := by
  obtain ⟨a1, h1, h2, h3⟩ := runWorkers_threadPartialSieve l1 g hT
  obtain ⟨a2, h4, h5, h6⟩ := runWorkers_threadPartialSieve l2 g hT
  have heq : a1 = a2 := by
    apply ext_of_getD (by rw [h2, h5])
    intro k _
    by_cases hs : ∃ r, r ∈ l1 ∧ StrikesFrom g.globalN g.numberOfThreads r (r + 1) k
    · have hs2 : ∃ r, r ∈ l2 ∧ StrikesFrom g.globalN g.numberOfThreads r (r + 1) k := by
        obtain ⟨r, hr, hh⟩ := hs
        exact ⟨r, (h r).1 hr, hh⟩
      rw [(h3 k).1 hs, (h6 k).1 hs2]
    · have hs2 : ¬ ∃ r, r ∈ l2 ∧ StrikesFrom g.globalN g.numberOfThreads r (r + 1) k := by
        rintro ⟨r, hr, hh⟩
        exact hs ⟨r, (h r).2 hr, hh⟩
      rw [(h3 k).2 hs, (h6 k).2 hs2]
  rw [h1, h4, heq]

/-- A composite `k + 1 ≤ n` is struck at the divisor index of its smallest prime factor
`p`, which belongs to the worker of rank `(p - 2) % T`. -/
theorem strikesFrom_minFac (n T : Nat) (hT : 0 < T) (k : Nat) (hkn : k < n) (hk2 : 2 ≤ k + 1)
    (hnp : ¬ Nat.Prime (k + 1)) :
    StrikesFrom n T ((Nat.minFac (k + 1) - 2) % T) ((Nat.minFac (k + 1) - 2) % T + 1) k := by
  have hp : Nat.Prime (Nat.minFac (k + 1)) := Nat.minFac_prime (by omega)
  have hdvd : Nat.minFac (k + 1) ∣ k + 1 := Nat.minFac_dvd _
  have hsq : Nat.minFac (k + 1) ^ 2 ≤ k + 1 := Nat.minFac_sq_le_self (by omega) hnp
  have hlt : Nat.minFac (k + 1) < k + 1 := by
    rcases Nat.lt_or_ge (Nat.minFac (k + 1)) (k + 1) with h | h
    · exact h
    · have hle := Nat.minFac_le (n := k + 1) (by omega)
      have : Nat.minFac (k + 1) = k + 1 := by omega
      exact absurd (this ▸ hp) hnp
  obtain ⟨i, hi⟩ : ∃ i, Nat.minFac (k + 1) = i + 2 := ⟨Nat.minFac (k + 1) - 2, by
    have := hp.two_le
    omega⟩
  rw [hi] at hp hdvd hsq hlt
  rw [hi, Nat.add_sub_cancel]
  have hmod : i % T < T := Nat.mod_lt _ hT
  have hmodle : i % T ≤ i := Nat.mod_le _ _
  refine ⟨i + 1, by omega, ?_, ?_, ?_, by omega, hkn, hdvd⟩
  · refine ⟨i / T, ?_⟩
    have := Nat.mod_add_div i T
    omega
  · have : (i + 1) * (i + 1) < (i + 2) ^ 2 := by nlinarith
    omega
  · rintro ⟨h1, h2⟩
    have h2dvd : 2 ∣ i + 2 := by omega
    have : 2 = i + 2 := (Nat.prime_dvd_prime_iff_eq Nat.prime_two hp).1 h2dvd
    have hi0 : i = 0 := by omega
    subst hi0
    simp at h1

/-- With four threads no prime belongs to the worker of rank 2. -/
theorem prime_rank_ne_two {p : Nat} (hp : Nat.Prime p) : (p - 2) % 4 ≠ 2 := by
  intro h
  have h2 := hp.two_le
  have h2dvd : 2 ∣ p := by omega
  have : 2 = p := (Nat.prime_dvd_prime_iff_eq Nat.prime_two hp).1 h2dvd
  omega

/-- The flag array after the workers of `ranks` have run on the all-true array: slots
not struck by a rank of the list are `TRUE`. -/
theorem runWorkers_fresh (ranks : List Nat) (n T : Nat) (hT : 0 < T) :
    ∃ a', runWorkers threadPartialSieve ranks
        { isPrimeArray := List.replicate n TRUE, numberOfThreads := T, globalN := n } =
        some { isPrimeArray := a', numberOfThreads := T, globalN := n } ∧
      a'.length = n ∧
      ∀ k, k < n → (a'.getD k 0 = TRUE ↔ ¬ ∃ r, r ∈ ranks ∧ StrikesFrom n T r (r + 1) k) := by
  obtain ⟨a', h1, h2, h3⟩ := runWorkers_threadPartialSieve ranks
    { isPrimeArray := List.replicate n TRUE, numberOfThreads := T, globalN := n } hT
  refine ⟨a', h1, by simpa using h2, ?_⟩
  intro k hk
  by_cases hs : ∃ r, r ∈ ranks ∧ StrikesFrom n T r (r + 1) k
  · rw [(h3 k).1 hs]
    simp [TRUE, FALSE, hs]
  · rw [(h3 k).2 hs]
    have hT1 : (List.replicate n TRUE).getD k 0 = TRUE := by
      simp [List.getD_eq_getElem?_getD, hk]
    exact ⟨fun _ => hs, fun _ => hT1⟩


/-! ## The checked code never fails -/

theorem checkedSet_of_lt {α : Type} (a : List α) (i : Nat) (v : α) (h : i < a.length) :
    checkedSet a i v = some (a.set i v) := by
  rw [checkedSet, if_pos h]

theorem getD_of_lt (a : List Nat) (i : Nat) (h : i < a.length) : a.getD i 0 = a[i] := by
  rw [List.getD_eq_getElem?_getD, List.getElem?_eq_getElem h, Option.getD_some]

theorem initLoopChecked_eq (n v : Nat) (d : Nat) :
    ∀ (i : Nat) (rest : List Nat), n - i = d → i ≤ n → rest.length = n - i →
      initLoopChecked n v i (List.replicate i v ++ rest) = some (List.replicate n v) := by
  induction d with
  | zero =>
    intro i rest hd hi hrest
    have hin : i = n := by omega
    subst hin
    have : rest = [] := List.length_eq_zero.1 (by omega)
    subst this
    rw [initLoopChecked, if_neg (by omega)]
    simp
  | succ d ih =>
    intro i rest hd hi hrest
    have hin : i < n := by omega
    cases rest with
    | nil => simp at hrest; omega
    | cons x xs =>
      have hset : checkedSet (List.replicate i v ++ x :: xs) i v =
          some (List.replicate (i + 1) v ++ xs) := by
        rw [checkedSet_of_lt _ _ _ (by simp), List.set_append_right i v (by simp)]
        simp [List.replicate_succ']
      rw [initLoopChecked, if_pos hin, hset]
      exact ih (i + 1) xs (by omega) (by omega) (by simp at hrest; omega)

theorem initLoopChecked_fresh (n v : Nat) :
    initLoopChecked n v 0 (List.replicate n 0) = some (List.replicate n v) := by
  have := initLoopChecked_eq n v n 0 (List.replicate n 0) rfl (Nat.zero_le _) (by simp)
  simpa using this

theorem markLoopChecked_eq (n i j : Nat) (s : List Nat) (hlen : n ≤ s.length) :
    markLoopChecked n i j s = some (markLoop n i j s) := by
  induction j, s using markLoop.induct n i with
  | case1 j s hj ih =>
    simp only [dite_eq_ite] at ih
    have hjl : j < s.length := by omega
    rw [markLoopChecked, if_pos hj, markLoop, if_pos hj, List.getElem?_eq_getElem hjl,
      getD_of_lt s j hjl]
    simp only
    by_cases h1 : s[j] = 1
    · rw [if_pos h1, if_pos h1, checkedSet_of_lt _ _ _ hjl]
      simp only
      rw [getD_of_lt s j hjl, if_pos h1] at ih
      exact ih (by simpa using hlen)
    · rw [if_neg h1, if_neg h1]
      rw [getD_of_lt s j hjl, if_neg h1] at ih
      exact ih hlen
  | case2 j s hj =>
    rw [markLoopChecked, if_neg hj, markLoop, if_neg hj]

theorem fullLoopChecked_eq (n i : Nat) (s : List Nat) (hlen : n ≤ s.length) :
    fullLoopChecked n i s = some (fullLoop n i s) := by
  induction i, s using fullLoop.induct n with
  | case1 i s hi ih =>
    rw [fullLoopChecked, if_pos hi, markLoopChecked_eq n i i s hlen, fullLoop, if_pos hi]
    exact ih (by rw [markLoop_length]; exact hlen)
  | case2 i s hi =>
    rw [fullLoopChecked, if_neg hi, fullLoop, if_neg hi]

/-- When the byte count does not wrap and `malloc` returns a block (or no cell is asked
for), the block has the `n` cells asked for. -/
theorem mallocCells_eq (width n : Nat) (ok : Bool) (hw : 0 < width)
    (h : width * n < 2 ^ 64) (hok : ok = true ∨ n = 0) : mallocCells width n ok = n := by
  unfold mallocCells
  rcases hok with hok | hn
  · rw [if_pos hok, Nat.mod_eq_of_lt h, Nat.mul_div_cancel_left n hw]
  · subst hn
    split <;> simp

theorem eratosthenesFullChecked_eq (n : Nat) (ok : Bool) (h : 8 * n < 2 ^ 64)
    (hok : ok = true ∨ n = 0) :
    eratosthenesFullChecked n ok = some (eratosthenesFull n) := by
  rw [eratosthenesFullChecked, mallocCells_eq 8 n ok (by decide) h hok,
    initLoopChecked_fresh]
  exact fullLoopChecked_eq n 0 _ (by simp)

theorem countLoopChecked_eq (sieve : List Nat) (n : Nat) (hlen : n ≤ sieve.length)
    (i lastPrime primeCount : Nat) :
    countLoopChecked sieve n i lastPrime primeCount =
      some (countLoop sieve n i lastPrime primeCount) := by
  induction i, lastPrime, primeCount using countLoop.induct sieve n with
  | case1 i lp pc hi hsel ih =>
    have hil : i < sieve.length := by omega
    rw [getD_of_lt sieve i hil] at hsel ih
    rw [countLoopChecked, if_pos hi, List.getElem?_eq_getElem hil, countLoop, if_pos hi,
      getD_of_lt sieve i hil]
    simp only
    rw [if_pos hsel, if_pos hsel]
    exact ih
  | case2 i lp pc hi hsel ih =>
    have hil : i < sieve.length := by omega
    rw [getD_of_lt sieve i hil] at hsel
    rw [countLoopChecked, if_pos hi, List.getElem?_eq_getElem hil, countLoop, if_pos hi,
      getD_of_lt sieve i hil]
    simp only
    rw [if_neg hsel, if_neg hsel]
    exact ih
  | case3 i lp pc hi =>
    rw [countLoopChecked, if_neg hi, countLoop, if_neg hi]

theorem fillLoopChecked_eq (sieve : List Nat) (n : Nat) (hlen : n ≤ sieve.length)
    (i lastPrime primeCount : Nat) (primes : List (Option Nat)) (writes : List Nat)
    (hroom : primeCount + (selected sieve n i lastPrime).length ≤ primes.length) :
    fillLoopChecked sieve n i lastPrime primeCount primes writes =
      some (fillLoop sieve n i lastPrime primeCount primes writes) := by
  induction i, lastPrime, primeCount, primes, writes using fillLoop.induct sieve n with
  | case1 i lp pc primes writes hi hsel ih =>
    have hil : i < sieve.length := by omega
    rw [selected_take hi hsel] at hroom
    simp only [List.length_cons] at hroom
    rw [getD_of_lt sieve i hil] at hsel ih
    rw [fillLoopChecked, if_pos hi, List.getElem?_eq_getElem hil, fillLoop, if_pos hi,
      getD_of_lt sieve i hil]
    simp only
    rw [if_pos hsel, if_pos hsel, checkedSet_of_lt _ _ _ (by omega)]
    simp only
    apply ih
    rw [getD_of_lt sieve i hil] at hroom
    simp only [List.length_set]
    omega
  | case2 i lp pc primes writes hi hsel ih =>
    have hil : i < sieve.length := by omega
    rw [selected_skip hi hsel] at hroom
    rw [getD_of_lt sieve i hil] at hsel
    rw [fillLoopChecked, if_pos hi, List.getElem?_eq_getElem hil, fillLoop, if_pos hi,
      getD_of_lt sieve i hil]
    simp only
    rw [if_neg hsel, if_neg hsel]
    exact ih hroom
  | case3 i lp pc primes writes hi =>
    rw [fillLoopChecked, if_neg hi, fillLoop, if_neg hi]

/-- The count of either extractor is at most `n`, so the byte count for `primes` does not
wrap when the one for the input array does not, and it is 0 when `n` is. -/
theorem mallocCells_count (n count : Nat) (ok : Bool) (hc : count ≤ n) (h : 8 * n < 2 ^ 64)
    (hok : ok = true ∨ n = 0) : mallocCells 8 count ok = count := by
  apply mallocCells_eq 8 count ok (by decide) (by omega)
  rcases hok with hok | hn
  · exact Or.inl hok
  · exact Or.inr (by omega)

theorem eratosthenesPrimeChecked_eq (n : Nat) (okSieve okPrimes : Bool) (h : 8 * n < 2 ^ 64)
    (hok : (okSieve = true ∧ okPrimes = true) ∨ n = 0) :
    eratosthenesPrimeChecked n okSieve okPrimes = some (eratosthenesPrime n) := by
  have hlen : n ≤ (eratosthenesFull n).length := by
    rw [eratosthenesFull_eq]
    simp
  have hok1 : okSieve = true ∨ n = 0 := hok.imp (fun x => x.1) id
  have hok2 : okPrimes = true ∨ n = 0 := hok.imp (fun x => x.2) id
  have hcount : countLoop (eratosthenesFull n) n 0 1 0 ≤ n := by
    have := length_oneAndPrimes_le n
    have e : (eratosthenesPrime n).size = (oneAndPrimes n).length := by
      rw [eratosthenesPrime_eq]
    have e2 : (eratosthenesPrime n).size = countLoop (eratosthenesFull n) n 0 1 0 := rfl
    omega
  rw [eratosthenesPrimeChecked, eratosthenesFullChecked_eq n okSieve h hok1]
  simp only
  rw [countLoopChecked_eq _ n hlen]
  simp only
  rw [mallocCells_count n _ okPrimes hcount h hok2, fillLoopChecked_eq _ n hlen]
  · rfl
  · rw [countLoop_eq]
    simp

theorem breakTestChecked_eq (rank i : Nat) :
    breakTestChecked rank i = some (decide (i > rank + 1 ∧ (i + 1) % 2 = 0)) := by
  unfold breakTestChecked checkedMod
  by_cases h : i > rank + 1
  · simp [h]
  · simp [h]

theorem strikeLoopChecked_eq (n rank i j : Nat) (a : List Nat) (hlen : n ≤ a.length) :
    strikeLoopChecked n rank i j a = some (strikeLoop n rank i j a) := by
  induction j, a using strikeLoop.induct n rank i with
  | case1 j a hj hbr =>
    rw [strikeLoopChecked, if_pos hj, breakTestChecked_eq, strikeLoop, if_pos hj, if_pos hbr]
    simp [hbr]
  | case2 j a hj hbr ih =>
    simp only [dite_eq_ite] at ih
    have hjl : j < a.length := by omega
    rw [strikeLoopChecked, if_pos hj, breakTestChecked_eq, strikeLoop, if_pos hj, if_neg hbr]
    simp only [hbr, decide_False]
    by_cases hji : j > i
    · rw [if_pos hji, checkedSet_of_lt _ _ _ hjl]
      simp only
      rw [if_pos hji] at ih ⊢
      exact ih (by simpa using hlen)
    · rw [if_neg hji]
      rw [if_neg hji] at ih ⊢
      exact ih hlen
  | case3 j a hj =>
    rw [strikeLoopChecked, if_neg hj, strikeLoop, if_neg hj]

theorem divisorLoopChecked_eq (n T rank : Nat) (hT : 0 < T) (i : Nat) (a : List Nat)
    (hlen : n ≤ a.length) :
    divisorLoopChecked n T rank i a = divisorLoop n T rank i a := by
  induction i, a using divisorLoop.induct n T rank with
  | case1 i a hi hT0 => omega
  | case2 i a hi hT0 ih =>
    rw [divisorLoopChecked, if_pos hi, if_neg hT0, strikeLoopChecked_eq n rank i i a hlen,
      divisorLoop, if_pos hi, if_neg hT0]
    exact ih (by rw [strikeLoop_length]; exact hlen)
  | case3 i a hi =>
    rw [divisorLoopChecked, if_neg hi, divisorLoop, if_neg hi]

theorem threadPartialSieveChecked_eq (rank : Nat) (g : Globals) (hT : 0 < g.numberOfThreads)
    (hlen : g.globalN ≤ g.isPrimeArray.length) :
    threadPartialSieveChecked rank g = threadPartialSieve rank g := by
  rw [threadPartialSieveChecked, threadPartialSieve, divisorLoopChecked_eq _ _ _ hT _ _ hlen]

theorem runWorkersChecked_eq (ranks : List Nat) (g : Globals) (hT : 0 < g.numberOfThreads)
    (hlen : g.globalN ≤ g.isPrimeArray.length) :
    runWorkers threadPartialSieveChecked ranks g = runWorkers threadPartialSieve ranks g := by
  induction ranks generalizing g with
  | nil => rfl
  | cons r rs ih =>
    obtain ⟨a1, h1, h2, _⟩ := threadPartialSieve_spec r g hT
    simp only [runWorkers, threadPartialSieveChecked_eq r g hT hlen, h1]
    exact ih _ hT (by simp only; omega)

theorem flagCountLoopChecked_eq (a : List Nat) (n : Nat) (hlen : n ≤ a.length)
    (i primeCount : Nat) :
    flagCountLoopChecked a n i primeCount = some (flagCountLoop a n i primeCount) := by
  induction i, primeCount using flagCountLoop.induct a n with
  | case1 i pc hi hsel ih =>
    have hil : i < a.length := by omega
    rw [getD_of_lt a i hil] at hsel
    rw [flagCountLoopChecked, if_pos hi, List.getElem?_eq_getElem hil, flagCountLoop, if_pos hi,
      getD_of_lt a i hil]
    simp only
    rw [if_pos hsel, if_pos hsel]
    exact ih
  | case2 i pc hi hsel ih =>
    have hil : i < a.length := by omega
    rw [getD_of_lt a i hil] at hsel
    rw [flagCountLoopChecked, if_pos hi, List.getElem?_eq_getElem hil, flagCountLoop, if_pos hi,
      getD_of_lt a i hil]
    simp only
    rw [if_neg hsel, if_neg hsel]
    exact ih
  | case3 i pc hi =>
    rw [flagCountLoopChecked, if_neg hi, flagCountLoop, if_neg hi]

theorem flagFillLoopChecked_eq (a : List Nat) (n : Nat) (hlen : n ≤ a.length)
    (i primeCount : Nat) (primes : List (Option Nat)) (writes : List Nat)
    (hroom : primeCount + (flagSelected a n i).length ≤ primes.length) :
    flagFillLoopChecked a n i primeCount primes writes =
      some (flagFillLoop a n i primeCount primes writes) := by
  induction i, primeCount, primes, writes using flagFillLoop.induct a n with
  | case1 i pc primes writes hi hsel ih =>
    have hil : i < a.length := by omega
    rw [flagSelected_take hi hsel] at hroom
    simp only [List.length_cons] at hroom
    rw [getD_of_lt a i hil] at hsel
    rw [flagFillLoopChecked, if_pos hi, List.getElem?_eq_getElem hil, flagFillLoop, if_pos hi,
      getD_of_lt a i hil]
    simp only
    rw [if_pos hsel, if_pos hsel, checkedSet_of_lt _ _ _ (by omega)]
    simp only
    apply ih
    simp only [List.length_set]
    omega
  | case2 i pc primes writes hi hsel ih =>
    have hil : i < a.length := by omega
    rw [flagSelected_skip hi hsel] at hroom
    rw [getD_of_lt a i hil] at hsel
    rw [flagFillLoopChecked, if_pos hi, List.getElem?_eq_getElem hil, flagFillLoop, if_pos hi,
      getD_of_lt a i hil]
    simp only
    rw [if_neg hsel, if_neg hsel]
    exact ih hroom
  | case3 i pc primes writes hi =>
    rw [flagFillLoopChecked, if_neg hi, flagFillLoop, if_neg hi]

theorem pth_eratosthenesPrimeChecked_eq (n : Nat) (g : Globals) (okFlags okPrimes : Bool)
    (hT : 0 < g.numberOfThreads) (h : 8 * n < 2 ^ 64)
    (hok : (okFlags = true ∧ okPrimes = true) ∨ n = 0) :
    pth_eratosthenesPrimeChecked n g okFlags okPrimes = pth_eratosthenesPrime n g := by
  obtain ⟨a', h1, h2, _⟩ := runThreads_flags n g.numberOfThreads hT
  have hok1 : okFlags = true ∨ n = 0 := hok.imp (fun x => x.1) id
  have hok2 : okPrimes = true ∨ n = 0 := hok.imp (fun x => x.2) id
  have hrun := h1
  rw [runThreads_eq_runWorkers, Nat.sub_zero, ← List.range_eq_range'] at hrun
  have hcount : flagCountLoop a' n 0 0 ≤ n := by
    obtain ⟨a2, e⟩ := pth_eratosthenesPrime_eq n g hT
    have e1 := pth_eratosthenesPrime_after_join n g _ h1
    rw [e] at e1
    have e2 := congrArg PrimeResult.size (Prod.mk.inj (Option.some.inj e1)).1
    simp only at e2
    have := length_oneAndPrimes_le n
    omega
  rw [pth_eratosthenesPrime_after_join n g _ h1]
  simp only [pth_eratosthenesPrimeChecked,
    mallocCells_eq 4 n okFlags (by decide) (by omega) hok1, initLoopChecked_fresh]
  rw [runWorkersChecked_eq (List.range g.numberOfThreads)
    { isPrimeArray := List.replicate n TRUE, numberOfThreads := g.numberOfThreads,
      globalN := n } hT (by simp), hrun]
  simp only
  rw [flagCountLoopChecked_eq a' n (by omega)]
  simp only
  rw [mallocCells_count n _ okPrimes hcount h hok2, flagFillLoopChecked_eq a' n (by omega)]
  rw [flagCountLoop_eq]
  simp


/-! ## The claims about `isPrime` and about the workers -/

/-- C11, at the failing inputs: `isPrime(0)` returns `true` although 0 is not a prime
(`0 % 2 == 0`, so the loop is skipped and `i < n` is `2 < 0`); `isPrime(1)` and
`isPrime(-4)` return `true` as well. -/
theorem isPrime_true_below_two :
    isPrime 0 = true ∧ ¬ Nat.Prime 0 ∧ isPrime 1 = true ∧ ¬ Nat.Prime 1 ∧
      isPrime (-4) = true := by
  refine ⟨?_, Nat.not_prime_zero, ?_, Nat.not_prime_one, ?_⟩ <;>
    simp +decide [isPrime, searchLoop]

/-- C12, as stated, fails at `N = 0`: `pth_eratosthenesPrime(0)` returns the empty array
with count 0, which is not 1 followed by the primes up to 0. -/
theorem parallel_bound_zero_gives_nothing :
    (pth_eratosthenesPrime 0 (Globals.mk [] 4 0)).map (fun x => (x.1.primes, x.1.size)) =
      some ([], 0) := by
  simp [pth_eratosthenesPrime, runThreads, threadPartialSieve, divisorLoop, strikeLoop,
    flagCountLoop, flagFillLoop, List.replicate, TRUE, FALSE]

/-- C12, amended. For every `N ≥ 0` and every `T ≥ 1`, after the workers
`threadPartialSieve(0), ..., threadPartialSieve(T-1)` have run on the all-true flag array of
length `N` (with `i < sqrt(N)` read as `i * i < N`), slot `k - 1` is `TRUE` if and only if
`k = 1` or `k` is prime, for every `k` in `1..N`; hence `pth_eratosthenesPrime(N)` returns
1 followed by the primes `≤ N` when `N ≥ 1`, and the empty array when `N = 0`. -/
theorem flags_after_all_workers (N T : Nat) (hT : 1 ≤ T) (g : Globals)
    (hg : g.numberOfThreads = T) :
    (∃ a', runThreads T 0 (Globals.mk (List.replicate N TRUE) T N) = some (Globals.mk a' T N) ∧
      a'.length = N ∧
      ∀ k, 1 ≤ k → k ≤ N → (a'.getD (k - 1) 0 = TRUE ↔ (k = 1 ∨ Nat.Prime k))) ∧
    (∃ r g1, pth_eratosthenesPrime N g = some (r, g1) ∧
      (1 ≤ N → r.primes = (1 :: primesUpTo N).map some) ∧ (N = 0 → r.primes = [])) := by
  constructor
  · obtain ⟨a', h1, h2, h3⟩ := runThreads_flags N T (by omega)
    refine ⟨a', h1, h2, ?_⟩
    intro k hk1 hkN
    have := h3 (k - 1) (by omega)
    rw [Nat.sub_add_cancel hk1] at this
    exact this
  · obtain ⟨a1, h⟩ := pth_eratosthenesPrime_eq N g (by omega)
    refine ⟨_, _, h, ?_, ?_⟩
    · intro hN
      rw [oneAndPrimes_eq N hN]
    · intro hN
      subst hN
      rfl

theorem flags_after_all_workers_witness :
    (1 ≤ 4) ∧ (Globals.mk [] 4 0).numberOfThreads = 4 ∧ (1 ≤ 10) ∧
      ∃ r g1, pth_eratosthenesPrime 10 (Globals.mk [] 4 0) = some (r, g1) ∧
        r.primes = (1 :: primesUpTo 10).map some :=
  ⟨by decide, rfl, by decide,
    match (flags_after_all_workers 10 4 (by decide) (Globals.mk [] 4 0) rfl).2 with
    | ⟨r, g1, h, hp, _⟩ => ⟨r, g1, h, hp (by decide)⟩⟩

/-- C13. For every `N` and every `T ≥ 1`, the flag array left after all `T` workers run
the code as written equals the flag array left after all `T` workers run the corrected
worker, in which the line `if (i > rank+1 && (i+1)%2 == 0) break;` is removed; so both
variants of `pth_eratosthenesPrime` return the same array and count. -/
theorem early_exit_harmless (N : Nat) (g : Globals) (hT : 1 ≤ g.numberOfThreads) :
    (∃ a', runThreads g.numberOfThreads 0
          (Globals.mk (List.replicate N TRUE) g.numberOfThreads N) =
          some (Globals.mk a' g.numberOfThreads N) ∧
        runWorkers threadPartialSieveNoBreak (List.range g.numberOfThreads)
          (Globals.mk (List.replicate N TRUE) g.numberOfThreads N) =
          some (Globals.mk a' g.numberOfThreads N)) ∧
    (∃ r g1, pth_eratosthenesPrime N g = some (r, g1) ∧
      pthWith threadPartialSieveNoBreak (List.range g.numberOfThreads) N g = some (r, g1)) := by
  obtain ⟨a1, h1, h2, h3⟩ := runThreads_flags N g.numberOfThreads (by omega)
  obtain ⟨a2, h4, h5, h6⟩ := runWorkers_spec threadPartialSieveNoBreak
    (fun n T r k => StrikesFromNoBreak n T (r + 1) k)
    (fun r g hT => threadPartialSieveNoBreak_spec r g hT) (List.range g.numberOfThreads)
    (Globals.mk (List.replicate N TRUE) g.numberOfThreads N) (by simp only; omega)
  have h5' : a2.length = N := by simpa using h5
  have heq : a2 = a1 := by
    apply ext_of_getD (by rw [h5', h2])
    intro k hk
    rw [h5'] at hk
    have hiff := struckNoBreak_iff_composite_range N g.numberOfThreads (by omega) k
    have hT1 : (List.replicate N TRUE).getD k 0 = TRUE := by
      simp [List.getD_eq_getElem?_getD, hk]
    by_cases hc : k < N ∧ 2 ≤ k + 1 ∧ ¬ Nat.Prime (k + 1)
    · rw [(h6 k).1 (hiff.2 hc)]
      have hne : ¬ a1.getD k 0 = TRUE := fun h => by
        rcases (h3 k hk).1 h with h | h
        · omega
        · exact hc.2.2 h
      obtain ⟨b, hb1, _, hb3⟩ := runThreads_spec g.numberOfThreads (by omega) 0
        (Globals.mk (List.replicate N TRUE) g.numberOfThreads N) rfl
      rw [h1] at hb1
      have hb : a1 = b := congrArg Globals.isPrimeArray (Option.some.inj hb1)
      rw [hb]
      exact ((hb3 k).1 ((struck_iff_composite N g.numberOfThreads (by omega) k).2 hc)).symm
    · rw [(h6 k).2 (fun h => hc (hiff.1 h))]
      have : a1.getD k 0 = TRUE := (h3 k hk).2 (by
        by_contra hcon
        push_neg at hcon
        exact hc ⟨hk, by omega, hcon.2⟩)
      rw [this]
      exact hT1
  rw [heq] at h4
  refine ⟨⟨a1, h1, h4⟩, ?_⟩
  have e1 := pth_eratosthenesPrime_after_join N g _ h1
  have e2 := pthWith_after threadPartialSieveNoBreak (List.range g.numberOfThreads) N g _ h4
  refine ⟨_, _, e1, ?_⟩
  rw [e2]
  simp only [flagCountLoop_eq, flagFillLoop_eq, Nat.zero_add, storeAll_replicate,
    List.nil_append, List.range_eq_range']

theorem early_exit_harmless_witness :
    (1 ≤ (Globals.mk [] 3 0).numberOfThreads) ∧
      ∃ r g1, pth_eratosthenesPrime 100 (Globals.mk [] 3 0) = some (r, g1) ∧
        pthWith threadPartialSieveNoBreak (List.range (Globals.mk [] 3 0).numberOfThreads) 100
          (Globals.mk [] 3 0) = some (r, g1) :=
  ⟨by decide, (early_exit_harmless 100 (Globals.mk [] 3 0) (by decide)).2⟩


/-- C14, as stated, fails: with five threads and `N = 64`, worker 1 visits the divisor
indices 2 and 7, so it owns the divisor 8, and `8 ≤ sqrt(64)`; yet after worker 1 alone has
run on the all-true array, slot 15 of the multiple `2 * 8 = 16` is still `TRUE`, because
the early exit fires at `i = 7`. -/
theorem owned_even_divisor_not_struck :
    visitedIndices 64 5 (1 + 1) = some [2, 7] ∧ 8 * 8 ≤ 64 ∧ 2 * 8 ≤ 64 ∧
      (threadPartialSieve 1 (Globals.mk (List.replicate 64 TRUE) 5 64)).map
        (fun g => g.isPrimeArray.getD (2 * 8 - 1) 0) = some TRUE := by
  refine ⟨?_, by decide, by decide, ?_⟩
  · simp [visitedIndices]
  · simp [threadPartialSieve, divisorLoop, strikeLoop, List.replicate, TRUE, FALSE]

/-- C14, amended. For every `N`, every `T ≥ 1`, every rank `r < T` and every divisor
`d = i + 1` that worker `r` owns (its outer loop visits `i`) and that is the first divisor
`r + 2` of the worker or is odd, after worker `r` alone has run on the all-true array every
strict multiple `m * d` with `m ≥ 2` and `m * d ≤ N` has its slot `m * d - 1` set to
`FALSE`. -/
theorem owned_divisor_strikes_multiples (N T r : Nat) (hT : 1 ≤ T) (hr : r < T) (i : Nat)
    (hvis : ∃ l, visitedIndices N T (r + 1) = some l ∧ i ∈ l)
    (hkeep : i = r + 1 ∨ (i + 1) % 2 = 1) (m : Nat) (hm : 2 ≤ m) (hmd : m * (i + 1) ≤ N) :
    ∃ g1, threadPartialSieve r (Globals.mk (List.replicate N TRUE) T N) = some g1 ∧
      g1.isPrimeArray.getD (m * (i + 1) - 1) 0 = FALSE := by
  obtain ⟨l, hl, hil⟩ := hvis
  obtain ⟨l1, hl1, hmem, _⟩ := visitedIndices_spec N T (by omega) (r + 1)
  rw [hl] at hl1
  have hll : l = l1 := Option.some.inj hl1
  subst hll
  obtain ⟨h1, h2, h3⟩ := (hmem i).1 hil
  obtain ⟨a', h4, _, h6⟩ := threadPartialSieve_spec r (Globals.mk (List.replicate N TRUE) T N)
    (by simp only; omega)
  refine ⟨_, h4, ?_⟩
  apply (h6 _).1
  obtain ⟨m, rfl⟩ : ∃ m', m = m' + 2 := ⟨m - 2, by omega⟩
  have hexp : (m + 2) * (i + 1) = m * (i + 1) + 2 * i + 2 := by ring
  refine ⟨i, h1, h2, h3, ?_, ?_, ?_, ?_⟩
  · rintro ⟨ha, hb⟩
    rcases hkeep with h | h <;> omega
  · omega
  · simp only
    omega
  · have : (m + 2) * (i + 1) - 1 + 1 = (m + 2) * (i + 1) := by omega
    rw [this]
    exact Dvd.intro_left _ rfl

theorem owned_divisor_strikes_multiples_witness :
    (1 ≤ 5) ∧ (1 < 5) ∧ (∃ l, visitedIndices 64 5 (1 + 1) = some l ∧ 2 ∈ l) ∧
      (2 = 1 + 1 ∨ (2 + 1) % 2 = 1) ∧ (2 ≤ 4) ∧ (4 * (2 + 1) ≤ 64) ∧
      ∃ g1, threadPartialSieve 1 (Globals.mk (List.replicate 64 TRUE) 5 64) = some g1 ∧
        g1.isPrimeArray.getD (4 * (2 + 1) - 1) 0 = FALSE :=
  ⟨by decide, by decide, ⟨[2, 7], by simp [visitedIndices], by simp⟩, by decide, by decide,
    by decide,
    owned_divisor_strikes_multiples 64 5 1 (by decide) (by decide) 2
      ⟨[2, 7], by simp [visitedIndices], by simp⟩ (by decide) 4 (by decide) (by decide)⟩

/-- C15, as stated, fails: for `N = 4`, one thread and rank 0 the outer loop visits only
the index 1, although `2 = 0 + 1 + 1 * 1` and `2 ≤ sqrt(4)`: the loop test is the strict
`i < sqrt(N)`. Read as a set of divisors `i + 1` the claim fails as well: the only divisor
used is 2, although `1 = 0 + 1 + 0 * 1` and `1 ≤ sqrt(4)`. -/
theorem index_at_square_root_not_visited :
    visitedIndices 4 1 (0 + 1) = some [1] ∧
      (2 = 0 + 1 + 1 * 1 ∧ 2 * 2 ≤ 4 ∧ 2 ∉ [1]) ∧
      (1 = 0 + 1 + 0 * 1 ∧ 1 * 1 ≤ 4 ∧ 1 ∉ [1].map (· + 1)) := by
  refine ⟨?_, by decide, by decide⟩
  simp [visitedIndices]

/-- C15, amended. For every `N`, every `T ≥ 1` and every rank `r < T`, the outer loop of
`threadPartialSieve(r)` exits, and the values of `i` it visits are exactly the
`i = r + 1 + k * T` with `k ≥ 0` and `i * i < N` (that is `i < sqrt(N)`, strictly), each
once and in increasing order; at each of them the worker runs its inner loop, which strikes
multiples of the divisor `i + 1`. -/
theorem visited_indices_of_worker (N T r : Nat) (hT : 1 ≤ T) (hr : r < T) (a : List Nat) :
    ∃ l, visitedIndices N T (r + 1) = some l ∧ l.Pairwise (· < ·) ∧
      (∀ i, i ∈ l ↔ ((∃ k, i = r + 1 + k * T) ∧ i * i < N)) ∧
      threadPartialSieve r (Globals.mk a T N) =
        some (Globals.mk (l.foldl (fun b x => strikeLoop N r x x b) a) T N) := by
  obtain ⟨l, hl, hmem, hsorted⟩ := visitedIndices_spec N T (by omega) (r + 1)
  refine ⟨l, hl, hsorted, ?_, ?_⟩
  · intro i
    rw [hmem]
    constructor
    · rintro ⟨h1, ⟨c, hc⟩, h3⟩
      exact ⟨⟨c, by rw [Nat.mul_comm]; omega⟩, h3⟩
    · rintro ⟨⟨k, hk⟩, h3⟩
      refine ⟨by omega, ⟨k, ?_⟩, h3⟩
      rw [Nat.mul_comm]
      omega
  · simp only [threadPartialSieve, divisorLoop_eq_foldl, hl]
    rfl

theorem visited_indices_of_worker_witness :
    (1 ≤ 5) ∧ (1 < 5) ∧
      ∃ l, visitedIndices 64 5 (1 + 1) = some l ∧ l.Pairwise (· < ·) ∧
        (∀ i, i ∈ l ↔ ((∃ k, i = 1 + 1 + k * 5) ∧ i * i < 64)) :=
  ⟨by decide, by decide,
    match visited_indices_of_worker 64 5 1 (by decide) (by decide) [] with
    | ⟨l, h1, h2, h3, _⟩ => ⟨l, h1, h2, h3⟩⟩

/-- C16. For every `N`, every `T ≥ 1` and any two distinct ranks `r, s < T`, the outer
loops of `threadPartialSieve(r)` and `threadPartialSieve(s)` exit and visit no divisor
index in common. -/
theorem visited_indices_disjoint (N T r s : Nat) (hT : 1 ≤ T) (hr : r < T) (hs : s < T)
    (hne : r ≠ s) :
    ∃ lr ls, visitedIndices N T (r + 1) = some lr ∧ visitedIndices N T (s + 1) = some ls ∧
      ∀ i, i ∈ lr → i ∉ ls := by
  obtain ⟨lr, hlr, hmr, _⟩ := visitedIndices_spec N T (by omega) (r + 1)
  obtain ⟨ls, hls, hms, _⟩ := visitedIndices_spec N T (by omega) (s + 1)
  refine ⟨lr, ls, hlr, hls, ?_⟩
  intro i hir his
  obtain ⟨h1, h2, _⟩ := (hmr i).1 hir
  obtain ⟨h3, h4, _⟩ := (hms i).1 his
  exact hne (rank_eq_of_common_index hr hs h1 h3 h2 h4)

theorem visited_indices_disjoint_witness :
    (1 ≤ 4) ∧ (0 < 4) ∧ (2 < 4) ∧ (0 ≠ 2) ∧
      ∃ lr ls, visitedIndices 100 4 (0 + 1) = some lr ∧
        visitedIndices 100 4 (2 + 1) = some ls ∧ ∀ i, i ∈ lr → i ∉ ls :=
  ⟨by decide, by decide, by decide, by decide,
    visited_indices_disjoint 100 4 0 2 (by decide) (by decide) (by decide) (by decide)⟩


/-- C17. For every `N`, every `T ≥ 1`, every rank `r < T` and every initial flag array
`a` of length `N`, `threadPartialSieve(r)` returns, and the array it leaves has in every
slot `FALSE` where the same worker, run on the all-true array, leaves `FALSE`, and the
value of `a` elsewhere; for an array of flags this is the slot-wise AND of `a` with the
array produced from the all-true array. So the struck slots do not depend on the contents
of the array, no slot goes from `FALSE` to `TRUE`, and the other slots are unchanged. -/
theorem worker_is_slotwise_and (N T r : Nat) (hT : 1 ≤ T) (hr : r < T) (a : List Nat)
    (ha : a.length = N) :
    ∃ a' w, threadPartialSieve r (Globals.mk a T N) = some (Globals.mk a' T N) ∧
      threadPartialSieve r (Globals.mk (List.replicate N TRUE) T N) = some (Globals.mk w T N) ∧
      a'.length = N ∧ w.length = N ∧
      (∀ k, k < N → (w.getD k 0 = TRUE ∨ w.getD k 0 = FALSE)) ∧
      (∀ k, k < N → a'.getD k 0 = if w.getD k 0 = FALSE then FALSE else a.getD k 0) ∧
      ((∀ x, x ∈ a → (x = TRUE ∨ x = FALSE)) → a' = List.zipWith flagAnd a w) ∧
      (∀ k, k < N → a.getD k 0 = FALSE → a'.getD k 0 = FALSE) ∧
      (∀ k, k < N → w.getD k 0 = TRUE → a'.getD k 0 = a.getD k 0) := by
  obtain ⟨a', h1, h2, h3⟩ := threadPartialSieve_spec r (Globals.mk a T N) (by simp only; omega)
  obtain ⟨w, h4, h5, h6⟩ := threadPartialSieve_spec r (Globals.mk (List.replicate N TRUE) T N)
    (by simp only; omega)
  simp only at h2 h3 h5 h6
  have h5' : w.length = N := by simpa using h5
  have hw : ∀ k, k < N → (w.getD k 0 = FALSE ↔ StrikesFrom N T r (r + 1) k) := by
    intro k hk
    constructor
    · intro hf
      by_contra hs
      rw [(h6 k).2 hs] at hf
      simp [List.getD_eq_getElem?_getD, hk, TRUE, FALSE] at hf
    · exact (h6 k).1
  have hpt : ∀ k, k < N → a'.getD k 0 = if w.getD k 0 = FALSE then FALSE else a.getD k 0 := by
    intro k hk
    by_cases hs : StrikesFrom N T r (r + 1) k
    · rw [if_pos ((hw k hk).2 hs), (h3 k).1 hs]
    · rw [if_neg (fun h => hs ((hw k hk).1 h)), (h3 k).2 hs]
  have hwflag : ∀ k, k < N → (w.getD k 0 = TRUE ∨ w.getD k 0 = FALSE) := by
    intro k hk
    by_cases hs : StrikesFrom N T r (r + 1) k
    · exact Or.inr ((h6 k).1 hs)
    · left
      rw [(h6 k).2 hs]
      simp [List.getD_eq_getElem?_getD, hk]
  refine ⟨a', w, h1, h4, by rw [h2, ha], h5', hwflag, hpt, ?_, ?_, ?_⟩
  · intro hflags
    apply List.ext_getElem
    · simp [h2, ha, h5']
    · intro k hk1 hk2
      have hk : k < N := by rw [h2, ha] at hk1; exact hk1
      have hka : k < a.length := by omega
      have hkw : k < w.length := by omega
      have e := hpt k hk
      rw [List.getD_eq_getElem?_getD, List.getElem?_eq_getElem hk1, Option.getD_some,
        List.getD_eq_getElem?_getD, List.getElem?_eq_getElem hkw, Option.getD_some,
        List.getD_eq_getElem?_getD, List.getElem?_eq_getElem hka, Option.getD_some] at e
      have hwk := hwflag k hk
      rw [List.getD_eq_getElem?_getD, List.getElem?_eq_getElem hkw, Option.getD_some] at hwk
      have hak := hflags (a[k]) (List.getElem_mem hka)
      rw [e, List.getElem_zipWith]
      unfold flagAnd
      rcases hwk with hw1 | hw1 <;> rcases hak with ha1 | ha1 <;>
        simp [hw1, ha1, TRUE, FALSE]
  · intro k hk hf
    rw [hpt k hk, hf]
    simp
  · intro k hk ht
    rw [hpt k hk, ht]
    simp [TRUE, FALSE]

theorem worker_is_slotwise_and_witness :
    (1 ≤ 4) ∧ (0 < 4) ∧ [1, 0, 1, 1, 1, 1].length = 6 ∧
      ∃ a' w, threadPartialSieve 0 (Globals.mk [1, 0, 1, 1, 1, 1] 4 6) =
          some (Globals.mk a' 4 6) ∧
        threadPartialSieve 0 (Globals.mk (List.replicate 6 TRUE) 4 6) =
          some (Globals.mk w 4 6) ∧
        a' = List.zipWith flagAnd [1, 0, 1, 1, 1, 1] w :=
  ⟨by decide, by decide, rfl,
    match worker_is_slotwise_and 6 4 0 (by decide) (by decide) [1, 0, 1, 1, 1, 1] rfl with
    | ⟨a', w, h1, h2, _, _, _, _, h3, _⟩ =>
      ⟨a', w, h1, h2, h3 (by decide)⟩⟩

/-- C18. For every `N`, every `T ≥ 1`, every flag array `a` and any ranks `r, s < T`:
running worker `r` then worker `s` gives the same array as running `s` then `r`; running
worker `r` twice gives the same array as running it once; and for every order in which
the `T` workers are run to completion the final array is the one the workers leave when
run by increasing rank. All these runs return. -/
theorem workers_commute (N T : Nat) (hT : 1 ≤ T) (a : List Nat) (r s : Nat) (hr : r < T)
    (hs : s < T) :
    (∃ a', runWorkers threadPartialSieve [r, s] (Globals.mk a T N) = some (Globals.mk a' T N) ∧
      runWorkers threadPartialSieve [s, r] (Globals.mk a T N) = some (Globals.mk a' T N)) ∧
    (∃ a', runWorkers threadPartialSieve [r, r] (Globals.mk a T N) = some (Globals.mk a' T N) ∧
      runWorkers threadPartialSieve [r] (Globals.mk a T N) = some (Globals.mk a' T N)) ∧
    (∃ a', runThreads T 0 (Globals.mk a T N) = some (Globals.mk a' T N) ∧
      ∀ order : List Nat, order.Perm (List.range T) →
        runWorkers threadPartialSieve order (Globals.mk a T N) = some (Globals.mk a' T N)) := by
  have hT0 : 0 < (Globals.mk a T N).numberOfThreads := by simp only; omega
  refine ⟨?_, ?_, ?_⟩
  · obtain ⟨a', h1, _⟩ := runWorkers_threadPartialSieve [r, s] (Globals.mk a T N) hT0
    refine ⟨a', h1, ?_⟩
    rw [← h1]
    apply runWorkers_congr _ _ _ _ hT0
    intro x
    simp [or_comm]
  · obtain ⟨a', h1, _⟩ := runWorkers_threadPartialSieve [r, r] (Globals.mk a T N) hT0
    refine ⟨a', h1, ?_⟩
    rw [← h1]
    apply runWorkers_congr _ _ _ _ hT0
    intro x
    simp
  · obtain ⟨a', h1, _⟩ := runWorkers_threadPartialSieve (List.range T) (Globals.mk a T N) hT0
    refine ⟨a', ?_, ?_⟩
    · rw [runThreads_eq_runWorkers, Nat.sub_zero, ← List.range_eq_range']
      exact h1
    · intro order hperm
      rw [← h1]
      apply runWorkers_congr _ _ _ _ hT0
      intro x
      exact hperm.mem_iff

theorem workers_commute_witness :
    (1 ≤ 4) ∧ (1 < 4) ∧ (2 < 4) ∧
      ∃ a', runWorkers threadPartialSieve [1, 2] (Globals.mk (List.replicate 20 TRUE) 4 20) =
          some (Globals.mk a' 4 20) ∧
        runWorkers threadPartialSieve [2, 1] (Globals.mk (List.replicate 20 TRUE) 4 20) =
          some (Globals.mk a' 4 20) :=
  ⟨by decide, by decide, by decide,
    (workers_commute 20 4 (by decide) (List.replicate 20 TRUE) 1 2 (by decide)
      (by decide)).1⟩


/-- An initialisation loop over an array with fewer than `n` cells stores out of
bounds. -/
theorem initLoopChecked_overrun (n v : Nat) (d : Nat) :
    ∀ (i : Nat) (mem : List Nat), mem.length - i = d → i ≤ mem.length → mem.length < n →
      initLoopChecked n v i mem = none := by
  induction d with
  | zero =>
    intro i mem hd hi hlen
    have hie : ¬ i < mem.length := by omega
    rw [initLoopChecked, if_pos (by omega), checkedSet, if_neg hie]
  | succ d ih =>
    intro i mem hd hi hlen
    have hil : i < mem.length := by omega
    rw [initLoopChecked, if_pos (by omega), checkedSet_of_lt _ _ _ hil]
    exact ih (i + 1) (mem.set i v) (by simp only [List.length_set]; omega)
      (by simp only [List.length_set]; omega) (by simp only [List.length_set]; omega)

theorem initLoopChecked_short (n v : Nat) (mem : List Nat) (h : mem.length < n) :
    initLoopChecked n v 0 mem = none :=
  initLoopChecked_overrun n v mem.length 0 mem rfl (Nat.zero_le _) h

/-- When `malloc` hands out fewer than `n` cells, `eratosthenesFull` stores out of
bounds. -/
theorem eratosthenesFullChecked_overrun (n : Nat) (ok : Bool) (h : mallocCells 8 n ok < n) :
    eratosthenesFullChecked n ok = none := by
  rw [eratosthenesFullChecked, initLoopChecked_short _ _ _ (by simpa using h)]

/-- When `malloc` hands out fewer than `n` cells for `isPrimeArray`,
`pth_eratosthenesPrime` stores out of bounds. -/
theorem pth_eratosthenesPrimeChecked_overrun (n : Nat) (g : Globals) (okFlags okPrimes : Bool)
    (h : mallocCells 4 n okFlags < n) :
    pth_eratosthenesPrimeChecked n g okFlags okPrimes = none := by
  simp only [pth_eratosthenesPrimeChecked,
    initLoopChecked_short n TRUE (List.replicate (mallocCells 4 n okFlags) 0)
      (by simpa using h)]

/-- C19, as stated, fails: for `N = 2 ^ 61 + 1` the byte count `8 * N` wraps to 8, so
`malloc` hands out one cell and the initialisation loop of `eratosthenesFull` stores into
`sieve[1]`, out of bounds; likewise `isPrimeArray` has one cell for `N = 2 ^ 62 + 1`; and
when `malloc` returns `NULL`, which the source never tests, already `sieve[0]` is out of
bounds for `N = 1`. -/
theorem wrapped_allocation_is_overrun :
    mallocCells 8 (2 ^ 61 + 1) true = 1 ∧
      eratosthenesFullChecked (2 ^ 61 + 1) true = none ∧
      mallocCells 4 (2 ^ 62 + 1) true = 1 ∧
      pth_eratosthenesPrimeChecked (2 ^ 62 + 1) (Globals.mk [] 4 0) true true = none ∧
      eratosthenesFullChecked 1 false = none :=
  ⟨by decide, eratosthenesFullChecked_overrun _ _ (by decide), by decide,
    pth_eratosthenesPrimeChecked_overrun _ _ _ _ (by decide),
    eratosthenesFullChecked_overrun _ _ (by decide)⟩

/-- C19, amended. For every `N ≥ 0` whose byte count does not wrap (`8 * N < 2 ^ 64`) and
whose `malloc` calls return a block (for `N = 0` they need not), and every `T ≥ 1`, the
code with every array access and every remainder checked never fails and computes what
the unchecked code computes: every index used on `sieve` in `eratosthenesFull`, on `sieve`
and `primes` in `eratosthenesPrime`, on `isPrimeArray` in `threadPartialSieve` (for any
array of at least `N` cells) and on `isPrimeArray` and `primes` in `pth_eratosthenesPrime`
is inside its array, the only divisor of a remainder is 2, and every index written in
`primes` is below the allocated count. -/
theorem no_access_out_of_bounds (N : Nat) (hN : 8 * N < 2 ^ 64)
    (okSieve okFlags okPrimes : Bool)
    (hok : (okSieve = true ∧ okFlags = true ∧ okPrimes = true) ∨ N = 0) (g : Globals)
    (hT : 1 ≤ g.numberOfThreads) :
    eratosthenesFullChecked N okSieve = some (eratosthenesFull N) ∧
    eratosthenesPrimeChecked N okSieve okPrimes = some (eratosthenesPrime N) ∧
    (∀ rank a, N ≤ a.length →
      ∃ g1, threadPartialSieveChecked rank (Globals.mk a g.numberOfThreads N) = some g1 ∧
        threadPartialSieve rank (Globals.mk a g.numberOfThreads N) = some g1) ∧
    (∃ r g1, pth_eratosthenesPrimeChecked N g okFlags okPrimes = some (r, g1) ∧
      pth_eratosthenesPrime N g = some (r, g1) ∧
      ∀ w, w ∈ r.writes → w < r.primes.length) ∧
    (∀ w, w ∈ (eratosthenesPrime N).writes → w < (eratosthenesPrime N).primes.length) := by
  have hok1 : okSieve = true ∨ N = 0 := hok.imp (fun x => x.1) id
  have hok2 : (okSieve = true ∧ okPrimes = true) ∨ N = 0 :=
    hok.imp (fun x => ⟨x.1, x.2.2⟩) id
  have hok3 : (okFlags = true ∧ okPrimes = true) ∨ N = 0 := hok.imp (fun x => x.2) id
  refine ⟨eratosthenesFullChecked_eq N okSieve hN hok1,
    eratosthenesPrimeChecked_eq N okSieve okPrimes hN hok2, ?_, ?_, ?_⟩
  · intro rank a ha
    obtain ⟨a1, h1, _⟩ := threadPartialSieve_spec rank (Globals.mk a g.numberOfThreads N)
      (by simp only; omega)
    refine ⟨_, ?_, h1⟩
    rw [threadPartialSieveChecked_eq rank _ (by simp only; omega) (by simpa using ha)]
    exact h1
  · obtain ⟨a1, h⟩ := pth_eratosthenesPrime_eq N g (by omega)
    refine ⟨_, _, ?_, h, ?_⟩
    · rw [pth_eratosthenesPrimeChecked_eq N g okFlags okPrimes (by omega) hN hok3]
      exact h
    · intro w hw
      simpa using hw
  · rw [eratosthenesPrime_eq]
    intro w hw
    simpa using hw

theorem no_access_out_of_bounds_witness :
    (8 * 3 < 2 ^ 64) ∧ ((true = true ∧ true = true ∧ true = true) ∨ 3 = 0) ∧
      (1 ≤ (Globals.mk [] 4 0).numberOfThreads) ∧
      eratosthenesFullChecked 3 true = some (eratosthenesFull 3) ∧
      eratosthenesPrimeChecked 3 true true = some (eratosthenesPrime 3) ∧
      ∃ r g1, pth_eratosthenesPrimeChecked 3 (Globals.mk [] 4 0) true true = some (r, g1) ∧
        pth_eratosthenesPrime 3 (Globals.mk [] 4 0) = some (r, g1) :=
  ⟨by decide, Or.inl ⟨rfl, rfl, rfl⟩, by decide,
    (no_access_out_of_bounds 3 (by decide) true true true (Or.inl ⟨rfl, rfl, rfl⟩)
      (Globals.mk [] 4 0) (by decide)).1,
    (no_access_out_of_bounds 3 (by decide) true true true (Or.inl ⟨rfl, rfl, rfl⟩)
      (Globals.mk [] 4 0) (by decide)).2.1,
    match (no_access_out_of_bounds 3 (by decide) true true true (Or.inl ⟨rfl, rfl, rfl⟩)
      (Globals.mk [] 4 0) (by decide)).2.2.2.1 with
    | ⟨r, g1, h1, h2, _⟩ => ⟨r, g1, h1, h2⟩⟩


/-- C20, as stated, fails for four threads and rank 2: the divisors of worker 2 are
4, 8, 12, ..., none of them prime, and for no bound `N` does leaving worker 2 out (workers
0, 1 and 3 run to completion) leave a composite `k ≤ N` flagged `TRUE`. -/
theorem idle_worker_two_of_four_changes_nothing :
    ¬ ∃ N g1 k, runWorkers threadPartialSieve [0, 1, 3]
          (Globals.mk (List.replicate N TRUE) 4 N) = some g1 ∧
        2 ≤ k ∧ k ≤ N ∧ ¬ Nat.Prime k ∧ g1.isPrimeArray.getD (k - 1) 0 = TRUE := by
  rintro ⟨N, g1, k, hrun, hk2, hkN, hnp, htrue⟩
  obtain ⟨a', h1, _, h3⟩ := runWorkers_fresh [0, 1, 3] N 4 (by decide)
  rw [h1] at hrun
  have hg : g1 = Globals.mk a' 4 N := (Option.some.inj hrun).symm
  subst hg
  have hk1 : k - 1 + 1 = k := by omega
  have hs := strikesFrom_minFac N 4 (by decide) (k - 1) (by omega) (by omega)
    (by rw [hk1]; exact hnp)
  rw [hk1] at hs
  have hne := prime_rank_ne_two (Nat.minFac_prime (n := k) (by omega))
  have hlt : (Nat.minFac k - 2) % 4 < 4 := Nat.mod_lt _ (by decide)
  apply (h3 (k - 1) (by omega)).1 htrue
  refine ⟨(Nat.minFac k - 2) % 4, ?_, hs⟩
  simp only [List.mem_cons, List.mem_singleton, List.not_mem_nil, or_false]
  omega

/-- C20, amended. For every `T ≥ 1` and every rank `r < T` whose divisors
`r + 2, r + 2 + T, r + 2 + 2T, ...` include a prime `p`, take the bound `N = p * p`: if
worker `r` never runs while the other `T - 1` workers run to completion, the composite
`p * p ≤ N` is left flagged `TRUE`, and the returned array differs from the array returned
when all `T` workers run. -/
theorem idle_worker_corrupts (T r : Nat) (hT : 1 ≤ T) (hr : r < T) (p : Nat)
    (hp : Nat.Prime p) (hstripe : ∃ k, p = r + 2 + k * T) (g : Globals)
    (hg : g.numberOfThreads = T) :
    (∃ a', runWorkers threadPartialSieve ((List.range T).filter fun x => decide (x ≠ r))
          (Globals.mk (List.replicate (p * p) TRUE) T (p * p)) =
          some (Globals.mk a' T (p * p)) ∧
        ¬ Nat.Prime (p * p) ∧ 2 ≤ p * p ∧ a'.getD (p * p - 1) 0 = TRUE) ∧
    (∃ bad good g1 g2,
      pthWith threadPartialSieve ((List.range T).filter fun x => decide (x ≠ r)) (p * p) g =
        some (bad, g1) ∧
      pth_eratosthenesPrime (p * p) g = some (good, g2) ∧ bad.primes ≠ good.primes) := by
  have hp2 := hp.two_le
  have hpp : 4 ≤ p * p := by nlinarith
  have hnp : ¬ Nat.Prime (p * p) := Nat.not_prime_mul (by omega) (by omega)
  obtain ⟨a', h1, h2, h3⟩ := runWorkers_fresh
    ((List.range T).filter fun x => decide (x ≠ r)) (p * p) T (by omega)
  have hk1 : p * p - 1 + 1 = p * p := by omega
  have htrue : a'.getD (p * p - 1) 0 = TRUE := by
    apply (h3 (p * p - 1) (by omega)).2
    rintro ⟨s, hs, i, hi1, hi2, hi3, _, hi5, _, hi7⟩
    rw [hk1] at hi7
    obtain ⟨hsT, hsr⟩ : s < T ∧ s ≠ r := by
      simpa [List.mem_filter, List.mem_range] using hs
    have hip : i < p := by
      by_contra hcon
      have : p * p ≤ i * i := Nat.mul_le_mul (by omega) (by omega)
      omega
    have hdiv : i + 1 ∣ p ^ 2 := by rw [pow_two]; exact hi7
    obtain ⟨j, hj, hij⟩ := (Nat.dvd_prime_pow hp).1 hdiv
    have hj1 : j = 1 := by
      rcases Nat.lt_or_ge j 1 with h | h
      · have : j = 0 := by omega
        subst this
        simp at hij
        omega
      · rcases Nat.eq_or_lt_of_le h with h | h
        · exact h.symm
        · have : j = 2 := by omega
          subst this
          rw [pow_two] at hij
          have : p ≤ p * p := Nat.le_mul_self p
          nlinarith
    subst hj1
    rw [pow_one] at hij
    obtain ⟨k, hk⟩ := hstripe
    have hrd : T ∣ (i - (r + 1)) := ⟨k, by rw [Nat.mul_comm]; omega⟩
    exact hsr (rank_eq_of_common_index hsT hr hi1 (by omega) hi2 hrd)
  refine ⟨⟨a', h1, hnp, by omega, htrue⟩, ?_⟩
  have hbad := pthWith_after threadPartialSieve
    ((List.range T).filter fun x => decide (x ≠ r)) (p * p) g
    (Globals.mk a' T (p * p)) (by rw [hg]; exact h1)
  obtain ⟨a2, hgood⟩ := pth_eratosthenesPrime_eq (p * p) g (by omega)
  refine ⟨_, _, _, _, hbad, hgood, ?_⟩
  simp only
  intro heq
  have hmem : p * p ∈ flagSelected a' (p * p) 0 :=
    (mem_flagSelected a' (p * p) 0 (p * p)).2 ⟨p * p - 1, by omega, by omega, htrue, by omega⟩
  have hmem2 : some (p * p) ∈ (flagSelected a' (p * p) 0).map some :=
    List.mem_map.2 ⟨_, hmem, rfl⟩
  rw [heq] at hmem2
  obtain ⟨x, hx, hxe⟩ := List.mem_map.1 hmem2
  have hxe' : x = p * p := Option.some.inj hxe
  subst hxe'
  have := (List.mem_filter.1 hx).2
  simp only [decide_eq_true_eq] at this
  rcases this with h | h
  · omega
  · exact hnp h

theorem idle_worker_corrupts_witness :
    (1 ≤ 4) ∧ (1 < 4) ∧ Nat.Prime 3 ∧ (∃ k, 3 = 1 + 2 + k * 4) ∧
      (Globals.mk [] 4 0).numberOfThreads = 4 ∧
      ∃ bad good g1 g2,
        pthWith threadPartialSieve ((List.range 4).filter fun x => decide (x ≠ 1)) (3 * 3)
          (Globals.mk [] 4 0) = some (bad, g1) ∧
        pth_eratosthenesPrime (3 * 3) (Globals.mk [] 4 0) = some (good, g2) ∧
        bad.primes ≠ good.primes :=
  ⟨by decide, by decide, Nat.prime_three, ⟨0, by decide⟩, rfl,
    (idle_worker_corrupts 4 1 (by decide) (by decide) 3 Nat.prime_three ⟨0, by decide⟩
      (Globals.mk [] 4 0) rfl).2⟩

/-! ## The search loop of `isPrime` -/

/-- From a candidate `i` between 2 and the smallest factor of `m`, the search loop ends
with `i` equal to the smallest factor of `m`. -/
theorem searchLoop_from (m : Nat) (hm : 2 ≤ m) (d : Nat) :
    ∀ i : Nat, Nat.minFac m - i = d → 2 ≤ i → i ≤ Nat.minFac m →
      searchLoop (m : Int) (i : Int) = (Nat.minFac m : Int) := by
  have hle : Nat.minFac m ≤ m := Nat.minFac_le (by omega)
  induction d with
  | zero =>
    intro i hd hi hile
    have hie : i = Nat.minFac m := by omega
    have hdvd : Nat.minFac m ∣ m := Nat.minFac_dvd m
    have hmod : Int.tmod (m : Int) (i : Int) = 0 := by
      rw [← Int.ofNat_tmod, hie, Nat.mod_eq_zero_of_dvd hdvd]
      rfl
    rw [searchLoop, if_neg (by rw [hmod]; simp), hie]
  | succ d ih =>
    intro i hd hi hile
    have hlt : i < Nat.minFac m := by omega
    have hnd : ¬ i ∣ m := fun h => by
      have := Nat.minFac_le_of_dvd hi h
      omega
    have hmod : Int.tmod (m : Int) (i : Int) ≠ 0 := by
      rw [← Int.ofNat_tmod]
      intro h
      exact hnd (Nat.dvd_of_mod_eq_zero (by exact_mod_cast h))
    have hdiv : Int.tdiv (m : Int) 2 = ((m / 2 : Nat) : Int) := by
      rw [Int.ofNat_tdiv]
      rfl
    rw [searchLoop, if_pos hmod, hdiv]
    by_cases hcut : i > m / 2
    · have hp : Nat.Prime m := by
        by_contra hnp
        have hsq : Nat.minFac m ^ 2 ≤ m := Nat.minFac_sq_le_self (by omega) hnp
        have h2 : 2 ≤ Nat.minFac m := (Nat.minFac_prime (by omega)).two_le
        have : 2 * Nat.minFac m ≤ Nat.minFac m ^ 2 := by
          rw [pow_two]
          exact Nat.mul_le_mul_right _ h2
        omega
      rw [if_pos (by exact_mod_cast hcut), (Nat.prime_def_minFac.1 hp).2]
    · rw [if_neg (by exact_mod_cast hcut)]
      have := ih (i + 1) (by omega) (by omega) (by omega)
      exact_mod_cast this

/-- The value of `i` after the search loop of `isPrime(m)`, for `m ≥ 2`. -/
theorem searchLoop_eq_minFac (m : Nat) (hm : 2 ≤ m) :
    searchLoop (m : Int) 2 = (Nat.minFac m : Int) := by
  have h2 : 2 ≤ Nat.minFac m := (Nat.minFac_prime (by omega)).two_le
  exact searchLoop_from m hm (Nat.minFac m - 2) 2 rfl (le_refl 2) h2

/-- C21. For every integer `n ≥ 2` the search loop of `isPrime(n)` terminates, with `i`
equal to the smallest divisor `d > 1` of `n` (for composite `n` this divisor is at most
`n / 2`, so it is reached before the cut-off `i > n / 2` fires), and `isPrime(n)` returns
`true` if and only if `n` is prime. -/
theorem isPrime_correct_from_two (n : Int) (hn : 2 ≤ n) :
    searchLoop n 2 = (Nat.minFac n.toNat : Int) ∧
      (Nat.minFac n.toNat : Int) ∣ n ∧
      (∀ d : Nat, 1 < d → (d : Int) ∣ n → Nat.minFac n.toNat ≤ d) ∧
      (¬ Nat.Prime n.toNat → (Nat.minFac n.toNat : Int) ≤ Int.tdiv n 2) ∧
      (isPrime n = true ↔ Nat.Prime n.toNat) := by
  obtain ⟨m, rfl⟩ : ∃ m : Nat, n = (m : Int) := ⟨n.toNat, (Int.toNat_of_nonneg (by omega)).symm⟩
  have hm : 2 ≤ m := by exact_mod_cast hn
  simp only [Int.toNat_ofNat]
  have hloop := searchLoop_eq_minFac m hm
  have hle : Nat.minFac m ≤ m := Nat.minFac_le (by omega)
  refine ⟨hloop, ?_, ?_, ?_, ?_⟩
  · exact Int.natCast_dvd_natCast.2 (Nat.minFac_dvd m)
  · intro d hd hdvd
    exact Nat.minFac_le_of_dvd hd (Int.natCast_dvd_natCast.1 hdvd)
  · intro hnp
    have hsq : Nat.minFac m ^ 2 ≤ m := Nat.minFac_sq_le_self (by omega) hnp
    have h2 : 2 ≤ Nat.minFac m := (Nat.minFac_prime (by omega)).two_le
    have h3 : 2 * Nat.minFac m ≤ Nat.minFac m ^ 2 := by
      rw [pow_two]
      exact Nat.mul_le_mul_right _ h2
    have h4 : Nat.minFac m ≤ m / 2 := by omega
    have hdiv : Int.tdiv (m : Int) 2 = ((m / 2 : Nat) : Int) := by
      rw [Int.ofNat_tdiv]
      rfl
    rw [hdiv]
    exact_mod_cast h4
  · rw [isPrime, hloop]
    constructor
    · intro h
      by_contra hnp
      have hlt : Nat.minFac m < m := by
        rcases Nat.lt_or_ge (Nat.minFac m) m with h1 | h1
        · exact h1
        · have he : Nat.minFac m = m := by omega
          exact absurd (Nat.prime_def_minFac.2 ⟨hm, he⟩) hnp
      have hlt2 : (Nat.minFac m : Int) < (m : Int) := by exact_mod_cast hlt
      rw [if_pos hlt2] at h
      exact absurd h (by decide)
    · intro hp
      rw [(Nat.prime_def_minFac.1 hp).2, if_neg (lt_irrefl _)]

theorem isPrime_correct_from_two_witness :
    ((2 : Int) ≤ 91) ∧ searchLoop 91 2 = (Nat.minFac (91 : Int).toNat : Int) ∧
      (isPrime 91 = true ↔ Nat.Prime (91 : Int).toNat) :=
  ⟨by decide, (isPrime_correct_from_two 91 (by decide)).1,
    (isPrime_correct_from_two 91 (by decide)).2.2.2.2⟩

end Eratosthenes
